import Mathlib

/-!
Verification development for the tree-builder and UI-state logic of
`src/app/page.tsx` in the `local-first-explorer` repository.

The embedding covers:
* `updateFileTree` (flat path-to-handle mapping to nested `FileNode` tree),
* `handleFileSelect` (selection lookup in the mapping),
* `formatFileSize` (binary-unit byte formatter),
* the reactive component state (`fileTree`, `selectedFile`, `isLoading`).

The TypeScript builder mutates a synthetic root in place while walking each
path's `/`-separated segments; nodes reached through a File node (whose
`children` field is `undefined`) are never attached to the tree, because every
mutation there goes through optional chaining (`current.children?.push`).  The
pure model below reflects exactly that: descending into a File child leaves the
tree unchanged.
-/

namespace LocalFirstExplorer

/-- Character-level model of JavaScript `path.split("/")` for the one-character
separator: splitting the empty string yields one empty segment, and every `'/'`
character starts a new segment. -/
def splitSegsAux : List Char → List (List Char)
  | [] => [[]]
  | c :: cs =>
    if c = '/' then [] :: splitSegsAux cs
    else
      match splitSegsAux cs with
      | [] => [[c]]
      | s :: ss => (c :: s) :: ss

/-- `path.split("/")` on strings. -/
def splitSlash (s : String) : List String :=
  (splitSegsAux s.data).map String.mk

/-- Character-level model of `Array.prototype.join("/")`. -/
def joinSegsAux : List (List Char) → List Char
  | [] => []
  | [s] => s
  | s :: ss => s ++ '/' :: joinSegsAux ss

/-- `segments.join("/")` on strings, as used for a created directory's `path`
(`parts.slice(0, index + 1).join("/")`). -/
def joinSegs (l : List String) : String :=
  String.mk (joinSegsAux (l.map String.data))

/-- The first `/`-separated segment of a path. -/
def headSeg (p : String) : String :=
  match splitSlash p with
  | [] => ""
  | s :: _ => s

/-- The `FileNode` interface of `page.tsx`: a node is a file (no `children`
field) or a directory (with a `children` array); both carry `name` and `path`. -/
inductive FileNode : Type where
  | file (name : String) (path : String)
  | dir (name : String) (path : String) (children : List FileNode)

-- Boolean structural equality of nodes, and the derived decidable equality.
mutual
def nodeBeq : FileNode → FileNode → Bool
  | .file n p, .file n' p' => n == n' && p == p'
  | .dir n p cs, .dir n' p' cs' => n == n' && p == p' && nodeListBeq cs cs'
  | _, _ => false
def nodeListBeq : List FileNode → List FileNode → Bool
  | [], [] => true
  | c :: cs, c' :: cs' => nodeBeq c c' && nodeListBeq cs cs'
  | _, _ => false
end

mutual
theorem nodeBeq_iff : ∀ (a b : FileNode), nodeBeq a b = true ↔ a = b
  | .file _ _, .file _ _ => by simp [nodeBeq]
  | .file _ _, .dir _ _ _ => by simp [nodeBeq]
  | .dir _ _ _, .file _ _ => by simp [nodeBeq]
  | .dir n p cs, .dir n' p' cs' => by
      simp [nodeBeq, nodeListBeq_iff cs cs', and_assoc]
theorem nodeListBeq_iff : ∀ (cs ds : List FileNode), nodeListBeq cs ds = true ↔ cs = ds
  | [], [] => by simp [nodeListBeq]
  | [], _ :: _ => by simp [nodeListBeq]
  | _ :: _, [] => by simp [nodeListBeq]
  | c :: cs, d :: ds => by simp [nodeListBeq, nodeBeq_iff c d, nodeListBeq_iff cs ds]
end

instance : DecidableEq FileNode :=
  fun a b => decidable_of_iff (nodeBeq a b = true) (nodeBeq_iff a b)

/-- The `name` field of a node. -/
def FileNode.name : FileNode → String
  | .file n _ => n
  | .dir n _ _ => n

/-- The `path` field of a node. -/
def FileNode.path : FileNode → String
  | .file _ p => p
  | .dir _ p _ => p

/-- `node.type === "directory"`. -/
def FileNode.isDir : FileNode → Bool
  | .file _ _ => false
  | .dir _ _ _ => true

/-- `children.find((c) => c.name === part)`, returning the elements before the
first match, the match, and the elements after it. -/
def splitAtName (part : String) : List FileNode → Option (List FileNode × FileNode × List FileNode)
  | [] => none
  | c :: cs =>
    if c.name = part then some ([], c, cs)
    else
      match splitAtName part cs with
      | none => none
      | some (b, x, a) => some (c :: b, x, a)

/-- One iteration of the `files.forEach` body of `updateFileTree`, acting on the
children list of the node at segment position `pre`; `parts` are the remaining
segments of the path `full` being inserted.

* final segment: `current.children?.push({name: part, type: "file", path})`;
* otherwise find the first child whose `name` equals the segment:
  * a Directory child: descend (the in-place mutation of that child);
  * a File child: `current` becomes a node without `children`, so every later
    `push` in this iteration is a no-op on the tree — the children are
    returned unchanged;
  * no child: create a Directory child with
    `path = parts.slice(0, index + 1).join("/")`, push it, and descend. -/
def insertIntoChildren (full : String) : List String → List String → List FileNode → List FileNode
  | _, [], cs => cs
  | _, [last], cs => cs ++ [FileNode.file last full]
  | pre, part :: rest, cs =>
    match splitAtName part cs with
    | some (b, FileNode.dir n p cs', a) =>
        b ++ FileNode.dir n p (insertIntoChildren full (pre ++ [part]) rest cs') :: a
    | some (_, FileNode.file _ _, _) => cs
    | none =>
        cs ++ [FileNode.dir part (joinSegs (pre ++ [part]))
                (insertIntoChildren full (pre ++ [part]) rest [])]

/-- One `files.forEach((file, path) => ...)` iteration on the synthetic root. -/
def insertPath (t : FileNode) (path : String) : FileNode :=
  match t with
  | .file n p => .file n p
  | .dir n p cs => .dir n p (insertIntoChildren path [] (splitSlash path) cs)

/-- The synthetic root built by `updateFileTree` from the mapping's paths in
iteration order, starting from `{name: "Root", type: "directory", children: [],
path: ""}`. -/
def buildRoot (paths : List String) : FileNode :=
  paths.foldl insertPath (FileNode.dir ("Root") ("") [])

/-- The children list of the synthetic root. -/
def rootChildren (paths : List String) : List FileNode :=
  paths.foldl (fun cs p => insertIntoChildren p [] (splitSlash p) cs) []

/-- `setFileTree(root.children?.[0] || null)`: the displayed tree is the root's
first child, or no tree at all. -/
def updateFileTree (paths : List String) : Option FileNode :=
  match buildRoot paths with
  | .file _ _ => none
  | .dir _ _ cs => cs.head?

/-- Two-digit zero-padded rendering of a number below 100 (the fractional part
produced by `toFixed(2)`). -/
def padTwo (n : Nat) : String :=
  if n < 10 then ("0") ++ toString n else toString n

/-- `(num / den).toFixed(2)` for a natural `num` and a positive power-of-two
`den`: the quotient is exact in binary floating point, and `toFixed` rounds the
exact value to two decimals, choosing the larger candidate on ties.  `scaled`
is that nearest integer number of hundredths. -/
def toFixed2 (num den : Nat) : String :=
  let scaled := (200 * num + den) / (2 * den)
  toString (scaled / 100) ++ "." ++ padTwo (scaled % 100)

/-- `formatFileSize` of `page.tsx`. -/
def formatFileSize (bytes : Nat) : String :=
  if bytes < 1024 then toString bytes ++ " bytes"
  else if bytes < 1048576 then toFixed2 bytes 1024 ++ " KB"
  else if bytes < 1073741824 then toFixed2 bytes 1048576 ++ " MB"
  else toFixed2 bytes 1073741824 ++ " GB"

/-- `files.get(path)` on the mapping, modelled as an association list in
iteration order with unique keys. -/
def mapGet {F : Type} (path : String) : List (String × F) → Option F
  | [] => none
  | (k, v) :: rest => if k = path then some v else mapGet path rest

/-- The reactive state of the `Page` component: the `files` mapping owned by the
`useFileSystem` hook together with the three `useState` cells. -/
structure AppState (F : Type) where
  files : List (String × F)
  fileTree : Option FileNode
  selectedFile : Option F
  isLoading : Bool

/-- The initial state: empty mapping, `useState<FileNode | null>(null)`,
`useState<File | null>(null)`, `useState(false)`. -/
def initState (F : Type) : AppState F :=
  { files := [], fileTree := none, selectedFile := none, isLoading := false }

/-- The events the component reacts to: a change of the hook's `files` mapping
(each of `onFilesAdded` / `onFilesChanged` / `onFilesDeleted` and the
`useEffect` run `updateFileTree(files)`), and a click calling
`handleFileSelect(path)`. -/
inductive Event (F : Type) : Type where
  | filesUpdate (files : List (String × F))
  | select (path : String)

/-- The state transition of the component.  `filesUpdate` reruns
`updateFileTree` (set `isLoading`, rebuild from scratch, publish the first root
child, clear `isLoading`); `select` runs `handleFileSelect`, which overwrites
`selectedFile` only when `files.get(path)` yields a file. -/
def step {F : Type} (s : AppState F) : Event F → AppState F
  | .filesUpdate fs =>
      { s with files := fs
               fileTree := updateFileTree (fs.map Prod.fst)
               isLoading := false }
  | .select path =>
      match mapGet path s.files with
      | some f => { s with selectedFile := some f }
      | none => s

/-! ### Basic facts about splitting and joining path segments -/

theorem splitSegsAux_ne_nil (cs : List Char) : splitSegsAux cs ≠ [] := by
  cases cs with
  | nil => simp [splitSegsAux]
  | cons c cs =>
    simp only [splitSegsAux]
    split
    · simp
    · split <;> simp

theorem joinSegsAux_splitSegsAux (cs : List Char) : joinSegsAux (splitSegsAux cs) = cs := by
  induction cs with
  | nil => rfl
  | cons c cs ih =>
    simp only [splitSegsAux]
    by_cases hc : c = '/'
    · subst hc
      simp only [if_pos rfl]
      cases h : splitSegsAux cs with
      | nil => exact absurd h (splitSegsAux_ne_nil cs)
      | cons s ss =>
        rw [h] at ih
        simpa [joinSegsAux] using ih
    · simp only [if_neg hc]
      cases h : splitSegsAux cs with
      | nil => exact absurd h (splitSegsAux_ne_nil cs)
      | cons s ss =>
        rw [h] at ih
        cases ss with
        | nil => simpa [joinSegsAux] using ih
        | cons s2 ss2 =>
          simp only [joinSegsAux] at ih ⊢
          simpa using ih

theorem splitSegsAux_append (a b : List Char) :
    splitSegsAux (a ++ '/' :: b) = splitSegsAux a ++ splitSegsAux b := by
  induction a with
  | nil => simp [splitSegsAux]
  | cons c a ih =>
    by_cases hc : c = '/'
    · subst hc
      simp [splitSegsAux, ih]
    · simp only [List.cons_append, splitSegsAux, if_neg hc, List.append_eq]
      rw [ih]
      cases h : splitSegsAux a with
      | nil => exact absurd h (splitSegsAux_ne_nil a)
      | cons s ss => simp

theorem no_slash_of_mem_splitSegsAux (cs : List Char) :
    ∀ s ∈ splitSegsAux cs, '/' ∉ s := by
  induction cs with
  | nil => simp [splitSegsAux]
  | cons c cs ih =>
    simp only [splitSegsAux]
    by_cases hc : c = '/'
    · simp only [if_pos hc]
      intro s hs
      rcases List.mem_cons.mp hs with h | h
      · simp [h]
      · exact ih s h
    · simp only [if_neg hc]
      cases h : splitSegsAux cs with
      | nil => exact absurd h (splitSegsAux_ne_nil cs)
      | cons s0 ss =>
        intro s hs
        rcases List.mem_cons.mp hs with h1 | h1
        · subst h1
          intro hmem
          rcases List.mem_cons.mp hmem with h2 | h2
          · exact hc h2.symm
          · exact ih s0 (h ▸ List.mem_cons_self s0 ss) h2
        · exact ih s (h ▸ List.mem_cons_of_mem s0 h1)

theorem splitSegsAux_of_no_slash (cs : List Char) (h : '/' ∉ cs) :
    splitSegsAux cs = [cs] := by
  induction cs with
  | nil => rfl
  | cons c cs ih =>
    simp only [List.mem_cons, not_or] at h
    have hc : ¬ c = '/' := fun e => h.1 e.symm
    simp [splitSegsAux, hc, ih h.2]

theorem splitSegsAux_joinSegsAux (L : List (List Char)) (hne : L ≠ [])
    (hfree : ∀ l ∈ L, '/' ∉ l) : splitSegsAux (joinSegsAux L) = L := by
  induction L with
  | nil => exact absurd rfl hne
  | cons s ss ih =>
    cases ss with
    | nil =>
      simp only [joinSegsAux]
      exact splitSegsAux_of_no_slash s (hfree s (List.mem_cons_self s []))
    | cons s2 ss2 =>
      simp only [joinSegsAux, splitSegsAux_append]
      rw [splitSegsAux_of_no_slash s (hfree s (List.mem_cons_self _ _)),
        ih (by simp) (fun l hl => hfree l (List.mem_cons_of_mem s hl))]
      rfl

theorem joinSegsAux_cons_append (a : List Char) (A B : List (List Char)) (hB : B ≠ []) :
    joinSegsAux ((a :: A) ++ B) = joinSegsAux (a :: A) ++ '/' :: joinSegsAux B := by
  induction A generalizing a with
  | nil =>
    cases B with
    | nil => exact absurd rfl hB
    | cons b B => rfl
  | cons a2 A2 ih =>
    have e1 : joinSegsAux ((a :: a2 :: A2) ++ B) = a ++ '/' :: joinSegsAux ((a2 :: A2) ++ B) := rfl
    have e2 : joinSegsAux (a :: a2 :: A2) = a ++ '/' :: joinSegsAux (a2 :: A2) := rfl
    rw [e1, ih a2, e2]
    simp

theorem joinSegsAux_append (A B : List (List Char)) (hA : A ≠ []) (hB : B ≠ []) :
    joinSegsAux (A ++ B) = joinSegsAux A ++ '/' :: joinSegsAux B := by
  cases A with
  | nil => exact absurd rfl hA
  | cons a A => exact joinSegsAux_cons_append a A B hB

/-! string-level versions -/

theorem string_data_append (a b : String) : (a ++ b).data = a.data ++ b.data := by
  cases a
  cases b
  rfl

theorem string_mk_data (s : String) : String.mk s.data = s := by
  cases s
  rfl

theorem splitSlash_ne_nil (s : String) : splitSlash s ≠ [] := by
  simp only [splitSlash, ne_eq, List.map_eq_nil_iff]
  exact splitSegsAux_ne_nil s.data

theorem joinSegs_splitSlash (s : String) : joinSegs (splitSlash s) = s := by
  simp only [joinSegs, splitSlash, List.map_map]
  have : (String.data ∘ String.mk) = id := by
    funext l
    rfl
  rw [this, List.map_id, joinSegsAux_splitSegsAux, string_mk_data]

theorem splitSlash_append (p r : String) :
    splitSlash (p ++ "/" ++ r) = splitSlash p ++ splitSlash r := by
  have hdata : (p ++ "/" ++ r).data = p.data ++ '/' :: r.data := by
    rw [string_data_append, string_data_append]
    simp [show ("/" : String).data = ['/'] from rfl]
  simp only [splitSlash, hdata, splitSegsAux_append, List.map_append]

theorem splitSlash_joinSegs (L : List String) (hne : L ≠ [])
    (hfree : ∀ x ∈ L, '/' ∉ x.data) : splitSlash (joinSegs L) = L := by
  simp only [splitSlash, joinSegs]
  rw [splitSegsAux_joinSegsAux]
  · rw [List.map_map]
    have : (String.mk ∘ String.data) = id := by
      funext s
      exact string_mk_data s
    rw [this, List.map_id]
  · simpa using hne
  · intro l hl
    rcases List.mem_map.mp hl with ⟨x, hx, rfl⟩
    exact hfree x hx

theorem no_slash_of_mem_splitSlash (s : String) :
    ∀ x ∈ splitSlash s, '/' ∉ x.data := by
  intro x hx
  rcases List.mem_map.mp hx with ⟨l, hl, rfl⟩
  exact no_slash_of_mem_splitSegsAux s.data l hl

theorem joinSegs_append (A B : List String) (hA : A ≠ []) (hB : B ≠ []) :
    joinSegs (A ++ B) = joinSegs A ++ "/" ++ joinSegs B := by
  simp only [joinSegs, List.map_append]
  rw [joinSegsAux_append _ _ (by simpa using hA) (by simpa using hB)]
  apply String.ext
  rw [string_data_append, string_data_append]
  simp [show ("/" : String).data = ['/'] from rfl]

theorem splitSlash_injective {p q : String} (h : splitSlash p = splitSlash q) : p = q := by
  have := joinSegs_splitSlash p
  rw [h, joinSegs_splitSlash] at this
  exact this.symm

/-! ### The proper-slash-prefix relation between paths -/

/-- `a` is a proper leading run of segments of `b`. -/
def SegBelow (a b : List String) : Prop :=
  a.length < b.length ∧ b.take a.length = a

instance : ∀ a b, Decidable (SegBelow a b) :=
  fun _ _ => inferInstanceAs (Decidable (_ ∧ _))

theorem segBelow_iff (a b : List String) :
    SegBelow a b ↔ ∃ c, c ≠ [] ∧ b = a ++ c := by
  constructor
  · rintro ⟨hlen, htake⟩
    refine ⟨b.drop a.length, ?_, ?_⟩
    · have hpos : 0 < (b.drop a.length).length := by
        rw [List.length_drop]
        omega
      exact List.length_pos.mp hpos
    · conv_lhs => rw [← List.take_append_drop a.length b]
      rw [htake]
  · rintro ⟨c, hc, rfl⟩
    constructor
    · simpa using List.length_pos_of_ne_nil hc
    · simp

/-- `p` is a proper slash-prefix of `q`: `q = p + "/" + more`. -/
def PathBelow (p q : String) : Prop :=
  ∃ r : String, q = p ++ "/" ++ r

theorem pathBelow_iff_segBelow (p q : String) :
    PathBelow p q ↔ SegBelow (splitSlash p) (splitSlash q) := by
  rw [segBelow_iff]
  constructor
  · rintro ⟨r, rfl⟩
    exact ⟨splitSlash r, splitSlash_ne_nil r, splitSlash_append p r⟩
  · rintro ⟨c, hc, hsplit⟩
    refine ⟨joinSegs c, ?_⟩
    have := joinSegs_splitSlash q
    rw [hsplit, joinSegs_append _ _ (splitSlash_ne_nil p) hc, joinSegs_splitSlash] at this
    exact this.symm

instance : ∀ p q, Decidable (PathBelow p q) :=
  fun p q => decidable_of_iff _ (pathBelow_iff_segBelow p q).symm

/-! ### Tree measures and invariants -/

-- Number of File (leaf) nodes in a tree.
mutual
def countFiles : FileNode → Nat
  | .file _ _ => 1
  | .dir _ _ cs => countFilesList cs
def countFilesList : List FileNode → Nat
  | [] => 0
  | c :: cs => countFiles c + countFilesList cs
end

-- The `path` fields of all File nodes of a tree, in traversal order.
mutual
def filePaths : FileNode → List String
  | .file _ p => [p]
  | .dir _ _ cs => filePathsList cs
def filePathsList : List FileNode → List String
  | [] => []
  | c :: cs => filePaths c ++ filePathsList cs
end

-- The `path` fields of all Directory nodes of a tree.
mutual
def dirPaths : FileNode → List String
  | .file _ _ => []
  | .dir _ p cs => p :: dirPathsList cs
def dirPathsList : List FileNode → List String
  | [] => []
  | c :: cs => dirPaths c ++ dirPathsList cs
end

-- Position invariant: a node lying under ancestor segments `pre` (the chain of
-- `name`s from just below the synthetic root down to its parent) has
-- `path` = the slash-join of `pre ++ [name]`; equivalently, its `path` splits
-- back into exactly those segments.
mutual
def nodeInv : List String → FileNode → Prop
  | pre, .file n p => splitSlash p = pre ++ [n]
  | pre, .dir n p cs => splitSlash p = pre ++ [n] ∧ childrenInv (pre ++ [n]) cs
def childrenInv : List String → List FileNode → Prop
  | _, [] => True
  | pre, c :: cs => nodeInv pre c ∧ childrenInv pre cs
end

/-- The `name`s of a children list. -/
def namesOf (cs : List FileNode) : List String :=
  cs.map FileNode.name

-- No children list anywhere in the tree has two entries (of any kind) with the
-- same `name`.
mutual
def dupFreeNode : FileNode → Prop
  | .file _ _ => True
  | .dir _ _ cs => (namesOf cs).Nodup ∧ dupFreeChildren cs
def dupFreeChildren : List FileNode → Prop
  | [] => True
  | c :: cs => dupFreeNode c ∧ dupFreeChildren cs
end

/-- Two sibling entries may not both be directories of the same name. -/
def dirNameNe (a b : FileNode) : Prop :=
  a.isDir = true → b.isDir = true → a.name ≠ b.name

-- No children list anywhere in the tree has two Directory entries with the
-- same `name`.
mutual
def dirDupFreeNode : FileNode → Prop
  | .file _ _ => True
  | .dir _ _ cs => List.Pairwise dirNameNe cs ∧ dirDupFreeChildren cs
def dirDupFreeChildren : List FileNode → Prop
  | [] => True
  | c :: cs => dirDupFreeNode c ∧ dirDupFreeChildren cs
end

theorem childrenInv_iff (pre : List String) (cs : List FileNode) :
    childrenInv pre cs ↔ ∀ c ∈ cs, nodeInv pre c := by
  induction cs with
  | nil => simp [childrenInv]
  | cons c cs ih => simp [childrenInv, ih]

theorem dupFreeChildren_iff (cs : List FileNode) :
    dupFreeChildren cs ↔ ∀ c ∈ cs, dupFreeNode c := by
  induction cs with
  | nil => simp [dupFreeChildren]
  | cons c cs ih => simp [dupFreeChildren, ih]

theorem dirDupFreeChildren_iff (cs : List FileNode) :
    dirDupFreeChildren cs ↔ ∀ c ∈ cs, dirDupFreeNode c := by
  induction cs with
  | nil => simp [dirDupFreeChildren]
  | cons c cs ih => simp [dirDupFreeChildren, ih]

theorem filePathsList_append (cs ds : List FileNode) :
    filePathsList (cs ++ ds) = filePathsList cs ++ filePathsList ds := by
  induction cs with
  | nil => rfl
  | cons c cs ih => simp [filePathsList, ih]

theorem dirPathsList_append (cs ds : List FileNode) :
    dirPathsList (cs ++ ds) = dirPathsList cs ++ dirPathsList ds := by
  induction cs with
  | nil => rfl
  | cons c cs ih => simp [dirPathsList, ih]

theorem countFilesList_append (cs ds : List FileNode) :
    countFilesList (cs ++ ds) = countFilesList cs + countFilesList ds := by
  induction cs with
  | nil => simp [countFilesList]
  | cons c cs ih => simp [countFilesList, ih, Nat.add_assoc]

-- The number of File nodes is the number of collected file paths.
mutual
theorem countFiles_eq_length_filePaths :
    ∀ (t : FileNode), countFiles t = (filePaths t).length
  | .file _ _ => rfl
  | .dir _ _ cs => countFilesList_eq_length_filePathsList cs
theorem countFilesList_eq_length_filePathsList :
    ∀ (cs : List FileNode), countFilesList cs = (filePathsList cs).length
  | [] => rfl
  | c :: cs => by
      simp only [countFilesList, filePathsList, List.length_append]
      rw [countFiles_eq_length_filePaths c, countFilesList_eq_length_filePathsList cs]
end

/-! ### Decomposition of the find-first-child-by-name step -/

theorem splitAtName_none_iff (part : String) (cs : List FileNode) :
    splitAtName part cs = none ↔ ∀ c ∈ cs, c.name ≠ part := by
  induction cs with
  | nil => simp [splitAtName]
  | cons c cs ih =>
    simp only [splitAtName]
    by_cases hc : c.name = part
    · simp [hc]
    · rw [if_neg hc]
      cases h : splitAtName part cs with
      | none =>
        rw [h] at ih
        simp only [List.mem_cons]
        constructor
        · intro _ d hd
          rcases hd with rfl | hd2
          · exact hc
          · exact ih.mp rfl d hd2
        · intro _
          trivial
      | some v =>
        obtain ⟨b, x, a⟩ := v
        rw [h] at ih
        constructor
        · intro hfalse
          simp at hfalse
        · intro hall
          have h2 : ∀ d ∈ cs, d.name ≠ part :=
            fun d hd => hall d (List.mem_cons_of_mem c hd)
          have := ih.mpr h2
          simp at this

theorem splitAtName_some_spec (part : String) :
    ∀ (cs b : List FileNode) (x : FileNode) (a : List FileNode),
      splitAtName part cs = some (b, x, a) →
      cs = b ++ x :: a ∧ x.name = part ∧ ∀ c ∈ b, c.name ≠ part := by
  intro cs
  induction cs with
  | nil => intro b x a h; simp [splitAtName] at h
  | cons c cs ih =>
    intro b x a h
    simp only [splitAtName] at h
    by_cases hc : c.name = part
    · rw [if_pos hc] at h
      simp only [Option.some.injEq, Prod.mk.injEq] at h
      obtain ⟨h1, h2, h3⟩ := h
      subst h1
      subst h2
      subst h3
      simp [hc]
    · rw [if_neg hc] at h
      cases h2 : splitAtName part cs with
      | none =>
        rw [h2] at h
        simp at h
      | some v =>
        obtain ⟨b2, x2, a2⟩ := v
        rw [h2] at h
        simp only [Option.some.injEq, Prod.mk.injEq] at h
        obtain ⟨h1, h3, h4⟩ := h
        subst h1
        subst h3
        subst h4
        obtain ⟨hcs, hx, hb⟩ := ih b2 x2 a2 h2
        refine ⟨by simp [hcs], hx, ?_⟩
        intro d hd
        rcases List.mem_cons.mp hd with rfl | hd2
        · exact hc
        · exact hb d hd2

theorem splitAtName_eq_some (part : String) (b : List FileNode) (x : FileNode)
    (a : List FileNode) (hb : ∀ c ∈ b, c.name ≠ part) (hx : x.name = part) :
    splitAtName part (b ++ x :: a) = some (b, x, a) := by
  induction b with
  | nil => simp [splitAtName, hx]
  | cons c b ih =>
    have hc : c.name ≠ part := hb c (List.mem_cons_self c b)
    simp only [List.cons_append, splitAtName, if_neg hc, List.append_eq]
    rw [ih (fun d hd => hb d (List.mem_cons_of_mem c hd))]

/-! ### Rewriting equations for one insertion step -/

theorem insertIntoChildren_nil (full : String) (pre : List String) (cs : List FileNode) :
    insertIntoChildren full pre [] cs = cs := rfl

theorem insertIntoChildren_single (full : String) (pre : List String) (last : String)
    (cs : List FileNode) :
    insertIntoChildren full pre [last] cs = cs ++ [FileNode.file last full] := rfl

theorem insertIntoChildren_cons_dirFound (full : String) (pre : List String)
    (part p2 : String) (rest : List String) (cs b : List FileNode) (n p : String)
    (cs' : List FileNode) (a : List FileNode)
    (h : splitAtName part cs = some (b, FileNode.dir n p cs', a)) :
    insertIntoChildren full pre (part :: p2 :: rest) cs =
      b ++ FileNode.dir n p (insertIntoChildren full (pre ++ [part]) (p2 :: rest) cs') :: a := by
  simp [insertIntoChildren, h]

theorem insertIntoChildren_cons_fileFound (full : String) (pre : List String)
    (part p2 : String) (rest : List String) (cs b : List FileNode) (n p : String)
    (a : List FileNode)
    (h : splitAtName part cs = some (b, FileNode.file n p, a)) :
    insertIntoChildren full pre (part :: p2 :: rest) cs = cs := by
  simp [insertIntoChildren, h]

theorem insertIntoChildren_cons_none (full : String) (pre : List String)
    (part p2 : String) (rest : List String) (cs : List FileNode)
    (h : splitAtName part cs = none) :
    insertIntoChildren full pre (part :: p2 :: rest) cs =
      cs ++ [FileNode.dir part (joinSegs (pre ++ [part]))
              (insertIntoChildren full (pre ++ [part]) (p2 :: rest) [])] := by
  simp [insertIntoChildren, h]

/-! ### Unconditional facts about one insertion -/

theorem childrenInv_append (pre : List String) (cs ds : List FileNode) :
    childrenInv pre (cs ++ ds) ↔ childrenInv pre cs ∧ childrenInv pre ds := by
  simp [childrenInv_iff, List.mem_append, or_imp, forall_and]

/-- Every insertion preserves the position invariant: paths recorded in the
tree always agree with tree positions, for any input mapping whatsoever. -/
theorem childrenInv_insert (full : String) :
    ∀ (parts pre : List String) (cs : List FileNode),
      splitSlash full = pre ++ parts →
      childrenInv pre cs →
      childrenInv pre (insertIntoChildren full pre parts cs) := by
  intro parts
  induction parts with
  | nil =>
    intro pre cs _ hinv
    exact hinv
  | cons part rest ih =>
    intro pre cs hsplit hinv
    cases rest with
    | nil =>
      rw [insertIntoChildren_single, childrenInv_append]
      refine ⟨hinv, ?_⟩
      simp only [childrenInv, nodeInv]
      exact ⟨hsplit, trivial⟩
    | cons p2 rest2 =>
      cases h : splitAtName part cs with
      | none =>
        rw [insertIntoChildren_cons_none full pre part p2 rest2 cs h, childrenInv_append]
        refine ⟨hinv, ?_⟩
        simp only [childrenInv, nodeInv]
        have hmem : ∀ x ∈ pre ++ [part], '/' ∉ x.data := by
          intro x hx
          apply no_slash_of_mem_splitSlash full
          rw [hsplit]
          rcases List.mem_append.mp hx with h1 | h1
          · exact List.mem_append_left _ h1
          · simp only [List.mem_singleton] at h1
            subst h1
            exact List.mem_append_right _ (List.mem_cons_self _ _)
        have hsp : splitSlash (joinSegs (pre ++ [part])) = pre ++ [part] :=
          splitSlash_joinSegs _ (by simp) hmem
        refine ⟨⟨hsp, ?_⟩, trivial⟩
        apply ih (pre ++ [part]) []
        · rw [hsplit]
          simp
        · trivial
      | some v =>
        obtain ⟨b, x, a⟩ := v
        cases x with
        | file n p =>
          rw [insertIntoChildren_cons_fileFound full pre part p2 rest2 cs b n p a h]
          exact hinv
        | dir n p cs' =>
          rw [insertIntoChildren_cons_dirFound full pre part p2 rest2 cs b n p cs' a h]
          obtain ⟨hcs, hname, _⟩ := splitAtName_some_spec part cs b _ a h
          rw [hcs, childrenInv_append] at hinv
          obtain ⟨hb, hrest⟩ := hinv
          simp only [childrenInv] at hrest
          obtain ⟨hdirInv, ha⟩ := hrest
          simp only [nodeInv] at hdirInv
          obtain ⟨hp, hcs'⟩ := hdirInv
          simp only [FileNode.name] at hname
          rw [childrenInv_append]
          refine ⟨hb, ?_⟩
          simp only [childrenInv, nodeInv]
          refine ⟨⟨hp, ?_⟩, ha⟩
          subst hname
          apply ih (pre ++ [n]) cs'
          · rw [hsplit]
            simp
          · exact hcs'

/-- Every file path present after an insertion was present before, or is the
path just inserted: file nodes only ever come from inserted paths. -/
theorem filePaths_insert_sub (full : String) :
    ∀ (parts pre : List String) (cs : List FileNode),
      ∀ x ∈ filePathsList (insertIntoChildren full pre parts cs),
        x ∈ filePathsList cs ∨ x = full := by
  intro parts
  induction parts with
  | nil =>
    intro pre cs x hx
    exact Or.inl hx
  | cons part rest ih =>
    intro pre cs x hx
    cases rest with
    | nil =>
      rw [insertIntoChildren_single, filePathsList_append] at hx
      rcases List.mem_append.mp hx with h1 | h1
      · exact Or.inl h1
      · simp only [filePathsList, filePaths, List.append_nil] at h1
        simp only [List.mem_singleton] at h1
        exact Or.inr h1
    | cons p2 rest2 =>
      cases h : splitAtName part cs with
      | none =>
        rw [insertIntoChildren_cons_none full pre part p2 rest2 cs h,
          filePathsList_append] at hx
        rcases List.mem_append.mp hx with h1 | h1
        · exact Or.inl h1
        · simp only [filePathsList, filePaths, List.append_nil] at h1
          rcases ih (pre ++ [part]) [] x h1 with h2 | h2
          · simp [filePathsList] at h2
          · exact Or.inr h2
      | some v =>
        obtain ⟨b, y, a⟩ := v
        cases y with
        | file n p =>
          rw [insertIntoChildren_cons_fileFound full pre part p2 rest2 cs b n p a h] at hx
          exact Or.inl hx
        | dir n p cs' =>
          rw [insertIntoChildren_cons_dirFound full pre part p2 rest2 cs b n p cs' a h] at hx
          obtain ⟨hcs, _, _⟩ := splitAtName_some_spec part cs b _ a h
          rw [filePathsList_append] at hx
          simp only [filePathsList, filePaths] at hx
          rcases List.mem_append.mp hx with h1 | h1
          · refine Or.inl ?_
            rw [hcs, filePathsList_append]
            exact List.mem_append_left _ h1
          · rcases List.mem_append.mp h1 with h2 | h2
            · rcases ih (pre ++ [part]) cs' x h2 with h3 | h3
              · refine Or.inl ?_
                rw [hcs, filePathsList_append]
                refine List.mem_append_right _ ?_
                simp only [filePathsList, filePaths]
                exact List.mem_append_left _ h3
              · exact Or.inr h3
            · refine Or.inl ?_
              rw [hcs, filePathsList_append]
              refine List.mem_append_right _ ?_
              simp only [filePathsList, filePaths]
              exact List.mem_append_right _ h2

/-- Every directory path present after an insertion was present before, or is
a proper leading segment run of the path just inserted. -/
theorem dirPaths_insert_sub (full : String) :
    ∀ (parts pre : List String) (cs : List FileNode),
      splitSlash full = pre ++ parts →
      ∀ x ∈ dirPathsList (insertIntoChildren full pre parts cs),
        x ∈ dirPathsList cs ∨ SegBelow (splitSlash x) (splitSlash full) := by
  intro parts
  induction parts with
  | nil =>
    intro pre cs _ x hx
    exact Or.inl hx
  | cons part rest ih =>
    intro pre cs hsplit x hx
    cases rest with
    | nil =>
      rw [insertIntoChildren_single, dirPathsList_append] at hx
      rcases List.mem_append.mp hx with h1 | h1
      · exact Or.inl h1
      · simp [dirPathsList, dirPaths] at h1
    | cons p2 rest2 =>
      have hmem : ∀ y ∈ pre ++ [part], '/' ∉ y.data := by
        intro y hy
        apply no_slash_of_mem_splitSlash full
        rw [hsplit]
        rcases List.mem_append.mp hy with h1 | h1
        · exact List.mem_append_left _ h1
        · simp only [List.mem_singleton] at h1
          subst h1
          exact List.mem_append_right _ (List.mem_cons_self _ _)
      have hnew : SegBelow (pre ++ [part]) (splitSlash full) := by
        rw [segBelow_iff]
        exact ⟨p2 :: rest2, by simp, by rw [hsplit]; simp⟩
      cases h : splitAtName part cs with
      | none =>
        rw [insertIntoChildren_cons_none full pre part p2 rest2 cs h,
          dirPathsList_append] at hx
        rcases List.mem_append.mp hx with h1 | h1
        · exact Or.inl h1
        · simp only [dirPathsList, dirPaths, List.append_nil] at h1
          rcases List.mem_cons.mp h1 with h2 | h2
          · subst h2
            refine Or.inr ?_
            rw [splitSlash_joinSegs _ (by simp) hmem]
            exact hnew
          · rcases ih (pre ++ [part]) [] (by rw [hsplit]; simp) x h2 with h3 | h3
            · simp [dirPathsList] at h3
            · exact Or.inr h3
      | some v =>
        obtain ⟨b, y, a⟩ := v
        cases y with
        | file n p =>
          rw [insertIntoChildren_cons_fileFound full pre part p2 rest2 cs b n p a h] at hx
          exact Or.inl hx
        | dir n p cs' =>
          rw [insertIntoChildren_cons_dirFound full pre part p2 rest2 cs b n p cs' a h] at hx
          obtain ⟨hcs, _, _⟩ := splitAtName_some_spec part cs b _ a h
          rw [dirPathsList_append] at hx
          simp only [dirPathsList, dirPaths] at hx
          rcases List.mem_append.mp hx with h1 | h1
          · refine Or.inl ?_
            rw [hcs, dirPathsList_append]
            exact List.mem_append_left _ h1
          · rcases List.mem_cons.mp h1 with h2 | h2
            · subst h2
              refine Or.inl ?_
              rw [hcs, dirPathsList_append]
              refine List.mem_append_right _ ?_
              simp [dirPathsList, dirPaths]
            · rcases List.mem_append.mp h2 with h3 | h3
              · rcases ih (pre ++ [part]) cs' (by rw [hsplit]; simp) x h3 with h4 | h4
                · refine Or.inl ?_
                  rw [hcs, dirPathsList_append]
                  refine List.mem_append_right _ ?_
                  simp only [dirPathsList, dirPaths]
                  exact List.mem_cons_of_mem _ (List.mem_append_left _ h4)
                · exact Or.inr h4
              · refine Or.inl ?_
                rw [hcs, dirPathsList_append]
                refine List.mem_append_right _ ?_
                simp only [dirPathsList, dirPaths]
                exact List.mem_cons_of_mem _ (List.mem_append_right _ h3)

/-! ### The walk of a path through the tree hitting a File node -/

/-- Walking `steps` from a children list, following at each level the first
child whose `name` equals the segment, reaches a File node.  When this happens
during an insertion, `current` loses its `children` field and every later
mutation of the iteration is a no-op on the tree. -/
def walkHitsFile : List FileNode → List String → Bool
  | _, [] => false
  | cs, part :: rest =>
    match splitAtName part cs with
    | none => false
    | some (_, FileNode.file _ _, _) => true
    | some (_, FileNode.dir _ _ cs', _) => walkHitsFile cs' rest

theorem splitAtName_append_of_some (part : String) (cs ds b : List FileNode)
    (x : FileNode) (a : List FileNode) (h : splitAtName part cs = some (b, x, a)) :
    splitAtName part (cs ++ ds) = some (b, x, a ++ ds) := by
  obtain ⟨hcs, hx, hb⟩ := splitAtName_some_spec part cs b x a h
  rw [hcs, List.append_assoc, List.cons_append]
  exact splitAtName_eq_some part b x (a ++ ds) hb hx

theorem splitAtName_append_single (part : String) (cs : List FileNode) (x : FileNode)
    (h : splitAtName part cs = none) (hx : x.name = part) :
    splitAtName part (cs ++ [x]) = some (cs, x, []) :=
  splitAtName_eq_some part cs x [] ((splitAtName_none_iff part cs).mp h) hx

/-- Replacing the first child of one name by another node of the same name
leaves the first match of any other name in place. -/
theorem splitAtName_of_replace (s0 part : String) (hne : s0 ≠ part)
    (b2 a2 : List FileNode) (y y' : FileNode)
    (hy : y.name = part) (hy' : y'.name = part)
    (b : List FileNode) (x : FileNode) (a : List FileNode)
    (h : splitAtName s0 (b2 ++ y :: a2) = some (b, x, a)) :
    ∃ b' a', splitAtName s0 (b2 ++ y' :: a2) = some (b', x, a') := by
  obtain ⟨hcs, hx, hb⟩ := splitAtName_some_spec s0 _ b x a h
  rcases List.append_eq_append_iff.mp hcs with ⟨w, hw1, hw2⟩ | ⟨w, hw1, hw2⟩
  · cases w with
    | nil =>
      simp only [List.nil_append] at hw2
      have hyx : y = x := by injection hw2
      apply absurd _ hne
      rw [← hx, ← hyx]
      exact hy
    | cons w0 w' =>
      simp only [List.cons_append, List.cons.injEq] at hw2
      obtain ⟨hyw0, ha2⟩ := hw2
      refine ⟨b2 ++ y' :: w', a, ?_⟩
      have hlist : b2 ++ y' :: a2 = (b2 ++ y' :: w') ++ x :: a := by
        rw [ha2]
        simp
      rw [hlist]
      apply splitAtName_eq_some
      · intro c hc
        rcases List.mem_append.mp hc with h1 | h1
        · refine hb c ?_
          rw [hw1]
          exact List.mem_append_left _ h1
        · rcases List.mem_cons.mp h1 with rfl | h2
          · rw [hy']
            exact fun e => hne e.symm
          · refine hb c ?_
            rw [hw1]
            exact List.mem_append_right _ (List.mem_cons_of_mem _ h2)
      · exact hx
  · cases w with
    | nil =>
      simp only [List.nil_append] at hw2
      have hxy : x = y := by injection hw2
      apply absurd _ hne
      rw [← hx, hxy]
      exact hy
    | cons w0 w' =>
      simp only [List.cons_append, List.cons.injEq] at hw2
      obtain ⟨hxw0, ha⟩ := hw2
      refine ⟨b, w' ++ y' :: a2, ?_⟩
      have hlist : b2 ++ y' :: a2 = b ++ x :: (w' ++ y' :: a2) := by
        rw [hw1, ← hxw0]
        simp
      rw [hlist]
      exact splitAtName_eq_some s0 b x _ hb hx

/-- If a walk already hits a File node, it still does along any longer walk. -/
theorem walkHitsFile_append (b : List String) :
    ∀ (a : List String) (cs : List FileNode),
      walkHitsFile cs a = true → walkHitsFile cs (a ++ b) = true := by
  intro a
  induction a with
  | nil =>
    intro cs hw
    simp [walkHitsFile] at hw
  | cons s rest ih =>
    intro cs hw
    rw [List.cons_append]
    cases h : splitAtName s cs with
    | none => simp [walkHitsFile, h] at hw
    | some v =>
      obtain ⟨b2, x, a2⟩ := v
      cases x with
      | file n p => simp [walkHitsFile, h]
      | dir n p cs' =>
        simp only [walkHitsFile, h] at hw ⊢
        exact ih cs' hw

/-- If the walk of a path's non-final segments hits a File node, inserting that
path changes nothing: all remaining pushes go through an absent `children`. -/
theorem insert_noop_of_walkHitsFile (full : String) :
    ∀ (parts pre : List String) (cs : List FileNode),
      walkHitsFile cs parts.dropLast = true →
      insertIntoChildren full pre parts cs = cs := by
  intro parts
  induction parts with
  | nil =>
    intro pre cs _
    rfl
  | cons part rest ih =>
    intro pre cs hw
    cases rest with
    | nil => simp [walkHitsFile] at hw
    | cons p2 rest2 =>
      have hdl : (part :: p2 :: rest2).dropLast = part :: (p2 :: rest2).dropLast := rfl
      rw [hdl] at hw
      cases h : splitAtName part cs with
      | none => simp [walkHitsFile, h] at hw
      | some v =>
        obtain ⟨b, x, a⟩ := v
        cases x with
        | file n p =>
          exact insertIntoChildren_cons_fileFound full pre part p2 rest2 cs b n p a h
        | dir n p cs' =>
          simp only [walkHitsFile, h] at hw
          rw [insertIntoChildren_cons_dirFound full pre part p2 rest2 cs b n p cs' a h,
            ih (pre ++ [part]) cs' hw]
          exact ((splitAtName_some_spec part cs b _ a h).1).symm

/-- Hitting a File node is monotone under further insertions: insertions only
append children or replace a child in place by one with the same name and, for
a File child, the same node. -/
theorem walkHitsFile_insert_mono (full : String) :
    ∀ (steps parts pre : List String) (cs : List FileNode),
      walkHitsFile cs steps = true →
      walkHitsFile (insertIntoChildren full pre parts cs) steps = true := by
  intro steps
  induction steps with
  | nil =>
    intro parts pre cs hw
    simp [walkHitsFile] at hw
  | cons s0 srest ih =>
    intro parts pre cs hw
    cases hsp : splitAtName s0 cs with
    | none => simp [walkHitsFile, hsp] at hw
    | some v =>
      obtain ⟨b, x, a⟩ := v
      cases parts with
      | nil => exact hw
      | cons part rest =>
        cases rest with
        | nil =>
          rw [insertIntoChildren_single]
          have hsp2 := splitAtName_append_of_some s0 cs [FileNode.file part full] b x a hsp
          cases x with
          | file n p => simp [walkHitsFile, hsp2]
          | dir n p cs' =>
            simp only [walkHitsFile, hsp] at hw
            simp only [walkHitsFile, hsp2]
            exact hw
        | cons p2 rest2 =>
          cases h : splitAtName part cs with
          | none =>
            rw [insertIntoChildren_cons_none full pre part p2 rest2 cs h]
            have hsp2 := splitAtName_append_of_some s0 cs
              [FileNode.dir part (joinSegs (pre ++ [part]))
                (insertIntoChildren full (pre ++ [part]) (p2 :: rest2) [])] b x a hsp
            cases x with
            | file n p => simp [walkHitsFile, hsp2]
            | dir n p cs' =>
              simp only [walkHitsFile, hsp] at hw
              simp only [walkHitsFile, hsp2]
              exact hw
          | some v2 =>
            obtain ⟨b2, y, a2⟩ := v2
            cases y with
            | file n p =>
              rw [insertIntoChildren_cons_fileFound full pre part p2 rest2 cs b2 n p a2 h]
              exact hw
            | dir n p cs2 =>
              rw [insertIntoChildren_cons_dirFound full pre part p2 rest2 cs b2 n p cs2 a2 h]
              obtain ⟨hcs2, hname2, hb2⟩ := splitAtName_some_spec part cs b2 _ a2 h
              simp only [FileNode.name] at hname2
              by_cases heq : s0 = part
              · subst heq
                rw [h] at hsp
                simp only [Option.some.injEq, Prod.mk.injEq] at hsp
                obtain ⟨rfl, hxeq, rfl⟩ := hsp
                simp only [walkHitsFile, h] at hw
                have hfound : splitAtName s0
                    (b2 ++ FileNode.dir n p
                      (insertIntoChildren full (pre ++ [s0]) (p2 :: rest2) cs2) :: a2) =
                    some (b2, FileNode.dir n p
                      (insertIntoChildren full (pre ++ [s0]) (p2 :: rest2) cs2), a2) := by
                  apply splitAtName_eq_some
                  · exact hb2
                  · simpa [FileNode.name] using hname2
                simp only [walkHitsFile, hfound]
                exact ih (p2 :: rest2) (pre ++ [s0]) cs2 hw
              · have hrep := splitAtName_of_replace s0 part heq b2 a2
                  (FileNode.dir n p cs2)
                  (FileNode.dir n p (insertIntoChildren full (pre ++ [part]) (p2 :: rest2) cs2))
                  (by simpa [FileNode.name] using hname2)
                  (by simpa [FileNode.name] using hname2)
                  b x a (hcs2 ▸ hsp)
                obtain ⟨b', a', hsp2⟩ := hrep
                cases x with
                | file n2 px => simp [walkHitsFile, hsp2]
                | dir n2 px cs3 =>
                  simp only [walkHitsFile, hsp] at hw
                  simp only [walkHitsFile, hsp2]
                  exact hw

theorem path_mem_dirPathsList (cs : List FileNode) (n p : String) (cs' : List FileNode)
    (hx : FileNode.dir n p cs' ∈ cs) : p ∈ dirPathsList cs := by
  induction cs with
  | nil => simp at hx
  | cons c cs ih =>
    simp only [dirPathsList]
    rcases List.mem_cons.mp hx with rfl | h2
    · simp [dirPaths]
    · exact List.mem_append_right _ (ih h2)

/-- After inserting a path into a tree that satisfies the position invariant
and holds no directory at the path's own position, walking the path's segments
hits a File node: either the walk already hit one, or it reaches the file just
pushed. -/
theorem walkHitsFile_insert_self (full : String) :
    ∀ (parts pre : List String) (cs : List FileNode),
      parts ≠ [] →
      splitSlash full = pre ++ parts →
      childrenInv pre cs →
      (∀ dp ∈ dirPathsList cs, splitSlash dp ≠ splitSlash full) →
      walkHitsFile (insertIntoChildren full pre parts cs) parts = true := by
  intro parts
  induction parts with
  | nil =>
    intro pre cs hne
    exact absurd rfl hne
  | cons part rest ih =>
    intro pre cs _ hsplit hinv hdir
    cases rest with
    | nil =>
      rw [insertIntoChildren_single]
      cases h : splitAtName part cs with
      | none =>
        have hfound := splitAtName_append_single part cs (FileNode.file part full) h
          (by simp [FileNode.name])
        simp [walkHitsFile, hfound]
      | some v =>
        obtain ⟨b, x, a⟩ := v
        have hsp2 := splitAtName_append_of_some part cs [FileNode.file part full] b x a h
        cases x with
        | file n p => simp [walkHitsFile, hsp2]
        | dir n p cs' =>
          exfalso
          obtain ⟨hcs, hname, _⟩ := splitAtName_some_spec part cs b _ a h
          simp only [FileNode.name] at hname
          have hmem : FileNode.dir n p cs' ∈ cs := by
            rw [hcs]
            exact List.mem_append_right _ (List.mem_cons_self _ _)
          have hinvx : nodeInv pre (FileNode.dir n p cs') :=
            (childrenInv_iff pre cs).mp hinv _ hmem
          simp only [nodeInv] at hinvx
          exact hdir p (path_mem_dirPathsList cs n p cs' hmem)
            (by rw [hinvx.1, hsplit, hname])
    | cons p2 rest2 =>
      cases h : splitAtName part cs with
      | none =>
        rw [insertIntoChildren_cons_none full pre part p2 rest2 cs h]
        have hfound := splitAtName_append_single part cs
          (FileNode.dir part (joinSegs (pre ++ [part]))
            (insertIntoChildren full (pre ++ [part]) (p2 :: rest2) [])) h
          (by simp [FileNode.name])
        simp only [walkHitsFile, hfound]
        apply ih (pre ++ [part]) []
        · simp
        · rw [hsplit]
          simp
        · trivial
        · simp [dirPathsList]
      | some v =>
        obtain ⟨b, x, a⟩ := v
        cases x with
        | file n p =>
          rw [insertIntoChildren_cons_fileFound full pre part p2 rest2 cs b n p a h]
          simp [walkHitsFile, h]
        | dir n p cs2 =>
          rw [insertIntoChildren_cons_dirFound full pre part p2 rest2 cs b n p cs2 a h]
          obtain ⟨hcs, hname, hb⟩ := splitAtName_some_spec part cs b _ a h
          simp only [FileNode.name] at hname
          have hfound : splitAtName part
              (b ++ FileNode.dir n p
                (insertIntoChildren full (pre ++ [part]) (p2 :: rest2) cs2) :: a) =
              some (b, FileNode.dir n p
                (insertIntoChildren full (pre ++ [part]) (p2 :: rest2) cs2), a) := by
            apply splitAtName_eq_some
            · exact hb
            · simpa [FileNode.name] using hname
          simp only [walkHitsFile, hfound]
          have hmem : FileNode.dir n p cs2 ∈ cs := by
            rw [hcs]
            exact List.mem_append_right _ (List.mem_cons_self _ _)
          have hinvx : nodeInv pre (FileNode.dir n p cs2) :=
            (childrenInv_iff pre cs).mp hinv _ hmem
          simp only [nodeInv] at hinvx
          apply ih (pre ++ [part]) cs2
          · simp
          · rw [hsplit]
            simp
          · rw [← hname]
            exact hinvx.2
          · intro dp hdp
            apply hdir dp
            rw [hcs, dirPathsList_append]
            refine List.mem_append_right _ ?_
            simp only [dirPathsList, dirPaths]
            exact List.mem_cons_of_mem _ (List.mem_append_left _ hdp)

/-! ### Fold-level plumbing -/

theorem foldl_insertPath_dir (ps : List String) :
    ∀ (n p : String) (cs : List FileNode),
      ps.foldl insertPath (FileNode.dir n p cs)
        = FileNode.dir n p
            (ps.foldl (fun cs q => insertIntoChildren q [] (splitSlash q) cs) cs) := by
  induction ps with
  | nil =>
    intro n p cs
    rfl
  | cons q ps ih =>
    intro n p cs
    simp only [List.foldl_cons]
    rw [show insertPath (FileNode.dir n p cs) q
        = FileNode.dir n p (insertIntoChildren q [] (splitSlash q) cs) from rfl]
    exact ih n p _

theorem updateFileTree_eq (ps : List String) :
    updateFileTree ps = (rootChildren ps).head? := by
  have h := foldl_insertPath_dir ps ("Root") ("") []
  simp only [updateFileTree, buildRoot, h, rootChildren]

theorem rootChildren_append_singleton (l : List String) (q : String) :
    rootChildren (l ++ [q]) = insertIntoChildren q [] (splitSlash q) (rootChildren l) := by
  simp [rootChildren, List.foldl_append]

/-- The invariant, file-path origin and directory-path origin of every built
children list. -/
theorem rootChildren_facts : ∀ (l : List String),
    childrenInv [] (rootChildren l) ∧
    (∀ fp ∈ filePathsList (rootChildren l), fp ∈ l) ∧
    (∀ dp ∈ dirPathsList (rootChildren l),
        ∃ r ∈ l, SegBelow (splitSlash dp) (splitSlash r)) := by
  intro l
  induction l using List.reverseRecOn with
  | nil =>
    refine ⟨trivial, ?_, ?_⟩
    · intro fp hfp
      simp [rootChildren, filePathsList] at hfp
    · intro dp hdp
      simp [rootChildren, dirPathsList] at hdp
  | append_singleton l q ih =>
    obtain ⟨h1, h2, h3⟩ := ih
    rw [rootChildren_append_singleton]
    refine ⟨?_, ?_, ?_⟩
    · exact childrenInv_insert q (splitSlash q) [] (rootChildren l) (by simp) h1
    · intro fp hfp
      rcases filePaths_insert_sub q (splitSlash q) [] (rootChildren l) fp hfp with h4 | h4
      · exact List.mem_append_left _ (h2 fp h4)
      · subst h4
        exact List.mem_append_right _ (by simp)
    · intro dp hdp
      rcases dirPaths_insert_sub q (splitSlash q) [] (rootChildren l) (by simp) dp hdp with h4 | h4
      · obtain ⟨r, hr, hsb⟩ := h3 dp h4
        exact ⟨r, List.mem_append_left _ hr, hsb⟩
      · exact ⟨q, List.mem_append_right _ (by simp), h4⟩

theorem walkHitsFile_foldl_mono (steps : List String) :
    ∀ (l : List String) (cs : List FileNode),
      walkHitsFile cs steps = true →
      walkHitsFile (l.foldl (fun cs p => insertIntoChildren p [] (splitSlash p) cs) cs) steps
        = true := by
  intro l
  induction l with
  | nil =>
    intro cs hw
    exact hw
  | cons r l ih =>
    intro cs hw
    exact ih _ (walkHitsFile_insert_mono r steps (splitSlash r) [] cs hw)

/-- C9, amended: if `p` is iterated before `q`, `p` is a proper slash-prefix
of `q`, and no path iterated before `p` has `p` as a proper slash-prefix, then
the walk for `q` reaches a File node (whose `children` field is absent), so
`q` contributes no node at all: the tree built from the mapping equals the tree
built with `q` removed. -/
theorem shadowed_extension_dropped (l1 l2 l3 : List String) (p q : String)
    (hpq : PathBelow p q)
    (hearlier : ∀ r ∈ l1, ¬ PathBelow p r) :
    updateFileTree (l1 ++ [p] ++ l2 ++ [q] ++ l3)
      = updateFileTree (l1 ++ [p] ++ l2 ++ l3) := by
  obtain ⟨hinv1, _, hdirs1⟩ := rootChildren_facts l1
  have hhit : walkHitsFile (rootChildren (l1 ++ [p])) (splitSlash p) = true := by
    rw [rootChildren_append_singleton]
    apply walkHitsFile_insert_self p (splitSlash p) [] (rootChildren l1)
      (splitSlash_ne_nil p) (by simp) hinv1
    intro dp hdp heq2
    obtain ⟨r, hr, hsb⟩ := hdirs1 dp hdp
    rw [heq2] at hsb
    exact hearlier r hr ((pathBelow_iff_segBelow p r).mpr hsb)
  obtain ⟨e, rfl⟩ := hpq
  have hdrop : (splitSlash (p ++ "/" ++ e)).dropLast
      = splitSlash p ++ (splitSlash e).dropLast := by
    rw [splitSlash_append]
    exact List.dropLast_append_of_ne_nil _ (splitSlash_ne_nil e)
  have hhit2 : walkHitsFile (rootChildren (l1 ++ [p] ++ l2))
      ((splitSlash (p ++ "/" ++ e)).dropLast) = true := by
    have hext := walkHitsFile_append ((splitSlash e).dropLast) (splitSlash p) _ hhit
    rw [← hdrop] at hext
    have hsteps2 : rootChildren (l1 ++ [p] ++ l2)
        = l2.foldl (fun cs r => insertIntoChildren r [] (splitSlash r) cs)
            (rootChildren (l1 ++ [p])) := by
      simp [rootChildren, List.foldl_append]
    rw [hsteps2]
    exact walkHitsFile_foldl_mono _ l2 _ hext
  have hnoop : insertIntoChildren (p ++ "/" ++ e) [] (splitSlash (p ++ "/" ++ e))
      (rootChildren (l1 ++ [p] ++ l2)) = rootChildren (l1 ++ [p] ++ l2) :=
    insert_noop_of_walkHitsFile _ (splitSlash (p ++ "/" ++ e)) [] _ hhit2
  have h5 : rootChildren (l1 ++ [p] ++ l2 ++ [p ++ "/" ++ e] ++ l3)
      = l3.foldl (fun cs r => insertIntoChildren r [] (splitSlash r) cs)
          (insertIntoChildren (p ++ "/" ++ e) [] (splitSlash (p ++ "/" ++ e))
            (rootChildren (l1 ++ [p] ++ l2))) := by
    simp [rootChildren, List.foldl_append]
  have h6 : rootChildren (l1 ++ [p] ++ l2 ++ l3)
      = l3.foldl (fun cs r => insertIntoChildren r [] (splitSlash r) cs)
          (rootChildren (l1 ++ [p] ++ l2)) := by
    simp [rootChildren, List.foldl_append]
  rw [updateFileTree_eq, updateFileTree_eq, h5, h6, hnoop]

/-! ### Insertion under prefix-freedom: exactly one file added, no duplicate
names created -/

theorem path_mem_filePathsList (cs : List FileNode) (n p : String)
    (hx : FileNode.file n p ∈ cs) : p ∈ filePathsList cs := by
  induction cs with
  | nil => simp at hx
  | cons c cs ih =>
    simp only [filePathsList]
    rcases List.mem_cons.mp hx with rfl | h2
    · simp [filePaths]
    · exact List.mem_append_right _ (ih h2)

theorem namesOf_append (cs ds : List FileNode) :
    namesOf (cs ++ ds) = namesOf cs ++ namesOf ds := by
  simp [namesOf]

/-- When no file in the tree sits at a proper leading segment run of the
inserted path (so the walk never reaches a File node), when the path itself is
not already present as a file, and when no directory sits at the path's exact
position, the insertion adds exactly the one new file and keeps every
children list free of duplicate names. -/
theorem insert_stayreal (full : String) :
    ∀ (parts pre : List String) (cs : List FileNode),
      parts ≠ [] →
      splitSlash full = pre ++ parts →
      childrenInv pre cs →
      (∀ fp ∈ filePathsList cs, ¬ SegBelow (splitSlash fp) (splitSlash full)) →
      (∀ fp ∈ filePathsList cs, splitSlash fp ≠ splitSlash full) →
      (∀ dp ∈ dirPathsList cs, splitSlash dp ≠ splitSlash full) →
      dupFreeChildren cs →
      (namesOf cs).Nodup →
      List.Perm (filePathsList (insertIntoChildren full pre parts cs))
          (full :: filePathsList cs) ∧
      dupFreeChildren (insertIntoChildren full pre parts cs) ∧
      (namesOf (insertIntoChildren full pre parts cs)).Nodup := by
  intro parts
  induction parts with
  | nil =>
    intro pre cs hne
    exact absurd rfl hne
  | cons part rest ih =>
    intro pre cs _ hsplit hinv hbelow hfresh hdirs hdf hnames
    cases rest with
    | nil =>
      have hnot : part ∉ namesOf cs := by
        intro hmem
        rcases List.mem_map.mp hmem with ⟨c, hc, hcname⟩
        cases c with
        | file n p =>
          have hinvc := (childrenInv_iff pre cs).mp hinv _ hc
          simp only [nodeInv] at hinvc
          simp only [FileNode.name] at hcname
          exact hfresh p (path_mem_filePathsList cs n p hc)
            (by rw [hinvc, hsplit, hcname])
        | dir n p cs' =>
          have hinvc := (childrenInv_iff pre cs).mp hinv _ hc
          simp only [nodeInv] at hinvc
          simp only [FileNode.name] at hcname
          exact hdirs p (path_mem_dirPathsList cs n p cs' hc)
            (by rw [hinvc.1, hsplit, hcname])
      rw [insertIntoChildren_single]
      refine ⟨?_, ?_, ?_⟩
      · rw [filePathsList_append]
        simp only [filePathsList, filePaths, List.append_nil]
        exact List.perm_append_comm
      · rw [dupFreeChildren_iff]
        intro c hc
        rcases List.mem_append.mp hc with h1 | h1
        · exact (dupFreeChildren_iff cs).mp hdf c h1
        · simp only [List.mem_singleton] at h1
          subst h1
          trivial
      · rw [namesOf_append, List.nodup_append]
        refine ⟨hnames, by simp [namesOf], ?_⟩
        intro x hx hx2
        simp only [namesOf, List.map, FileNode.name] at hx2
        simp only [List.mem_singleton] at hx2
        subst hx2
        exact hnot hx
    | cons p2 rest2 =>
      cases h : splitAtName part cs with
      | none =>
        have hnamesEq : ∀ c ∈ cs, c.name ≠ part := (splitAtName_none_iff part cs).mp h
        rw [insertIntoChildren_cons_none full pre part p2 rest2 cs h]
        have hih := ih (pre ++ [part]) [] (by simp)
          (by rw [hsplit]; simp) trivial
          (by intro fp hfp; simp [filePathsList] at hfp)
          (by intro fp hfp; simp [filePathsList] at hfp)
          (by intro dp hdp; simp [dirPathsList] at hdp)
          trivial (by simp [namesOf])
        obtain ⟨hp1, hp2, hp3⟩ := hih
        refine ⟨?_, ?_, ?_⟩
        · rw [filePathsList_append]
          simp only [filePathsList, filePaths, List.append_nil]
          refine List.Perm.trans List.perm_append_comm ?_
          refine List.Perm.trans (hp1.append_right _) ?_
          simp [filePathsList]
        · rw [dupFreeChildren_iff]
          intro c hc
          rcases List.mem_append.mp hc with h1 | h1
          · exact (dupFreeChildren_iff cs).mp hdf c h1
          · simp only [List.mem_singleton] at h1
            subst h1
            exact ⟨hp3, hp2⟩
        · rw [namesOf_append, List.nodup_append]
          refine ⟨hnames, by simp [namesOf], ?_⟩
          intro x hx hx2
          simp only [namesOf, List.map, FileNode.name] at hx2
          simp only [List.mem_singleton] at hx2
          subst hx2
          rcases List.mem_map.mp hx with ⟨c, hc, hcname⟩
          exact hnamesEq c hc hcname
      | some v =>
        obtain ⟨b, x, a⟩ := v
        cases x with
        | file n p =>
          exfalso
          obtain ⟨hcs, hname, _⟩ := splitAtName_some_spec part cs b _ a h
          simp only [FileNode.name] at hname
          have hmem : FileNode.file n p ∈ cs := by
            rw [hcs]
            exact List.mem_append_right _ (List.mem_cons_self _ _)
          have hinvc := (childrenInv_iff pre cs).mp hinv _ hmem
          simp only [nodeInv] at hinvc
          apply hbelow p (path_mem_filePathsList cs n p hmem)
          rw [hinvc, hsplit, hname, segBelow_iff]
          exact ⟨p2 :: rest2, by simp, by simp⟩
        | dir n p cs2 =>
          rw [insertIntoChildren_cons_dirFound full pre part p2 rest2 cs b n p cs2 a h]
          obtain ⟨hcs, hname, hb⟩ := splitAtName_some_spec part cs b _ a h
          simp only [FileNode.name] at hname
          have hmem : FileNode.dir n p cs2 ∈ cs := by
            rw [hcs]
            exact List.mem_append_right _ (List.mem_cons_self _ _)
          have hinvc := (childrenInv_iff pre cs).mp hinv _ hmem
          simp only [nodeInv] at hinvc
          have hdfc : dupFreeNode (FileNode.dir n p cs2) :=
            (dupFreeChildren_iff cs).mp hdf _ hmem
          simp only [dupFreeNode] at hdfc
          have hsubf : ∀ fp ∈ filePathsList cs2, fp ∈ filePathsList cs := by
            intro fp hfp
            rw [hcs, filePathsList_append]
            refine List.mem_append_right _ ?_
            simp only [filePathsList, filePaths]
            exact List.mem_append_left _ hfp
          have hsubd : ∀ dp ∈ dirPathsList cs2, dp ∈ dirPathsList cs := by
            intro dp hdp
            rw [hcs, dirPathsList_append]
            refine List.mem_append_right _ ?_
            simp only [dirPathsList, dirPaths]
            exact List.mem_cons_of_mem _ (List.mem_append_left _ hdp)
          have hih := ih (pre ++ [part]) cs2 (by simp)
            (by rw [hsplit]; simp)
            (by rw [← hname]; exact hinvc.2)
            (fun fp hfp => hbelow fp (hsubf fp hfp))
            (fun fp hfp => hfresh fp (hsubf fp hfp))
            (fun dp hdp => hdirs dp (hsubd dp hdp))
            hdfc.2 hdfc.1
          obtain ⟨hp1, hp2, hp3⟩ := hih
          refine ⟨?_, ?_, ?_⟩
          · rw [hcs, filePathsList_append, filePathsList_append]
            simp only [filePathsList, filePaths]
            refine List.Perm.trans (List.Perm.append_left _ (hp1.append_right _)) ?_
            have heq : filePathsList b ++ ((full :: filePathsList cs2) ++ filePathsList a)
                = filePathsList b ++ full :: (filePathsList cs2 ++ filePathsList a) := by
              simp
            rw [heq]
            exact List.perm_middle
          · rw [dupFreeChildren_iff]
            intro c hc
            rcases List.mem_append.mp hc with h1 | h1
            · refine (dupFreeChildren_iff cs).mp hdf c ?_
              rw [hcs]
              exact List.mem_append_left _ h1
            · rcases List.mem_cons.mp h1 with rfl | h2
              · exact ⟨hp3, hp2⟩
              · refine (dupFreeChildren_iff cs).mp hdf c ?_
                rw [hcs]
                exact List.mem_append_right _ (List.mem_cons_of_mem _ h2)
          · have hsame : namesOf (b ++ FileNode.dir n p
                (insertIntoChildren full (pre ++ [part]) (p2 :: rest2) cs2) :: a)
                = namesOf cs := by
              rw [hcs, namesOf_append, namesOf_append]
              simp [namesOf, FileNode.name]
            rw [hsame]
            exact hnames

/-- For a flat mapping with unique paths none of which is a proper slash-prefix
of another: the built tree's file paths are exactly the mapping's paths (as a
permutation), and no children list anywhere has two entries with one name. -/
theorem rootChildren_stayreal : ∀ (l : List String),
    l.Nodup → (∀ p ∈ l, ∀ q ∈ l, ¬ PathBelow p q) →
    List.Perm (filePathsList (rootChildren l)) l ∧
    dupFreeChildren (rootChildren l) ∧ (namesOf (rootChildren l)).Nodup := by
  intro l
  induction l using List.reverseRecOn with
  | nil =>
    intro _ _
    refine ⟨?_, trivial, ?_⟩
    · simp [rootChildren, filePathsList]
    · simp [rootChildren, namesOf]
  | append_singleton l q ih =>
    intro hnd hfree
    obtain ⟨hndl, -, hdisj⟩ := List.nodup_append.mp hnd
    have hql : q ∉ l := fun hmem => hdisj hmem (by simp)
    have hfree' : ∀ p ∈ l, ∀ r ∈ l, ¬ PathBelow p r := fun p hp r hr =>
      hfree p (List.mem_append_left _ hp) r (List.mem_append_left _ hr)
    obtain ⟨hperm, hdf, hnames⟩ := ih hndl hfree'
    obtain ⟨hinv, hfsub, hdsub⟩ := rootChildren_facts l
    rw [rootChildren_append_singleton]
    have hb1 : ∀ fp ∈ filePathsList (rootChildren l),
        ¬ SegBelow (splitSlash fp) (splitSlash q) := by
      intro fp hfp hsb
      exact hfree fp (List.mem_append_left _ (hfsub fp hfp)) q
        (List.mem_append_right _ (by simp)) ((pathBelow_iff_segBelow fp q).mpr hsb)
    have hb2 : ∀ fp ∈ filePathsList (rootChildren l), splitSlash fp ≠ splitSlash q := by
      intro fp hfp heq
      have hfq : fp = q := splitSlash_injective heq
      subst hfq
      exact hql (hfsub fp hfp)
    have hb3 : ∀ dp ∈ dirPathsList (rootChildren l), splitSlash dp ≠ splitSlash q := by
      intro dp hdp heq
      obtain ⟨r, hr, hsb⟩ := hdsub dp hdp
      rw [heq] at hsb
      exact hfree q (List.mem_append_right _ (by simp)) r (List.mem_append_left _ hr)
        ((pathBelow_iff_segBelow q r).mpr hsb)
    obtain ⟨hp1, hp2, hp3⟩ := insert_stayreal q (splitSlash q) [] (rootChildren l)
      (splitSlash_ne_nil q) (by simp) hinv hb1 hb2 hb3 hdf hnames
    refine ⟨?_, hp2, hp3⟩
    refine List.Perm.trans hp1 ?_
    refine List.Perm.trans (hperm.cons q) ?_
    exact @List.perm_append_comm _ [q] l

/-- With, in addition, a common first segment `s` across all paths, the
synthetic root keeps at most one child, and that child is named `s`. -/
theorem rootChildren_single_top : ∀ (l : List String) (s : String),
    l.Nodup → (∀ p ∈ l, ∀ q ∈ l, ¬ PathBelow p q) → (∀ p ∈ l, headSeg p = s) →
    (∀ c ∈ rootChildren l, c.name = s) ∧ (rootChildren l).length ≤ 1 := by
  intro l
  induction l using List.reverseRecOn with
  | nil =>
    intro s _ _ _
    exact ⟨by simp [rootChildren], by simp [rootChildren]⟩
  | append_singleton l q ih =>
    intro s hnd hfree htop
    obtain ⟨hndl, -, hdisj⟩ := List.nodup_append.mp hnd
    have hql : q ∉ l := fun hmem => hdisj hmem (by simp)
    have hfree' : ∀ p ∈ l, ∀ r ∈ l, ¬ PathBelow p r := fun p hp r hr =>
      hfree p (List.mem_append_left _ hp) r (List.mem_append_left _ hr)
    have htop' : ∀ p ∈ l, headSeg p = s := fun p hp => htop p (List.mem_append_left _ hp)
    obtain ⟨hnames1, hlen1⟩ := ih s hndl hfree' htop'
    obtain ⟨hinv, hfsub, hdsub⟩ := rootChildren_facts l
    rw [rootChildren_append_singleton]
    have hq : headSeg q = s := htop q (List.mem_append_right _ (by simp))
    cases hsq : splitSlash q with
    | nil => exact absurd hsq (splitSlash_ne_nil q)
    | cons part rest =>
      have hpart : part = s := by
        have hh : headSeg q = part := by simp [headSeg, hsq]
        rw [← hh, hq]
      cases rest with
      | nil =>
        cases hcs : rootChildren l with
        | nil =>
          rw [insertIntoChildren_single]
          refine ⟨?_, by simp⟩
          intro c hc
          simp only [List.nil_append, List.mem_singleton] at hc
          subst hc
          simp [FileNode.name, hpart]
        | cons c cs' =>
          exfalso
          have hlne : l ≠ [] := by
            intro h0
            rw [h0] at hcs
            simp [rootChildren] at hcs
          obtain ⟨p0, hp0⟩ := List.exists_mem_of_ne_nil l hlne
          have hp0s : headSeg p0 = s := htop' p0 hp0
          cases hsp0 : splitSlash p0 with
          | nil => exact absurd hsp0 (splitSlash_ne_nil p0)
          | cons part0 rest0 =>
            have hpart0 : part0 = s := by
              have hh : headSeg p0 = part0 := by simp [headSeg, hsp0]
              rw [← hh, hp0s]
            cases rest0 with
            | nil =>
              have hp0q : p0 = q := by
                apply splitSlash_injective
                rw [hsp0, hsq, hpart0, hpart]
              exact hql (hp0q ▸ hp0)
            | cons r1 rest1 =>
              have hsb : SegBelow (splitSlash q) (splitSlash p0) := by
                rw [hsq, hsp0, hpart, hpart0, segBelow_iff]
                exact ⟨r1 :: rest1, by simp, rfl⟩
              exact hfree q (List.mem_append_right _ (by simp)) p0
                (List.mem_append_left _ hp0) ((pathBelow_iff_segBelow q p0).mpr hsb)
      | cons r2 rest2 =>
        cases h2 : splitAtName part (rootChildren l) with
        | none =>
          have hcsnil : rootChildren l = [] := by
            cases hcs : rootChildren l with
            | nil => rfl
            | cons c cs' =>
              exfalso
              have hno := (splitAtName_none_iff part _).mp h2 c
                (by rw [hcs]; exact List.mem_cons_self _ _)
              apply hno
              rw [hnames1 c (by rw [hcs]; exact List.mem_cons_self _ _), hpart]
          rw [insertIntoChildren_cons_none q [] part r2 rest2 _ h2, hcsnil]
          refine ⟨?_, by simp⟩
          intro c hc
          simp only [List.nil_append, List.mem_singleton] at hc
          subst hc
          simp [FileNode.name, hpart]
        | some v =>
          obtain ⟨b, x, a⟩ := v
          cases x with
          | file n p =>
            exfalso
            obtain ⟨hcs, hname, _⟩ := splitAtName_some_spec part _ b _ a h2
            simp only [FileNode.name] at hname
            have hmem : FileNode.file n p ∈ rootChildren l := by
              rw [hcs]
              exact List.mem_append_right _ (List.mem_cons_self _ _)
            have hinvc := (childrenInv_iff [] _).mp hinv _ hmem
            simp only [nodeInv, List.nil_append] at hinvc
            have hpl : p ∈ l := hfsub p (path_mem_filePathsList _ n p hmem)
            have hsb : SegBelow (splitSlash p) (splitSlash q) := by
              rw [hinvc, hsq, hname, segBelow_iff]
              exact ⟨r2 :: rest2, by simp, rfl⟩
            exact hfree p (List.mem_append_left _ hpl) q
              (List.mem_append_right _ (by simp)) ((pathBelow_iff_segBelow p q).mpr hsb)
          | dir n p cs2 =>
            rw [insertIntoChildren_cons_dirFound q [] part r2 rest2 _ b n p cs2 a h2]
            simp only [List.nil_append]
            obtain ⟨hcs, hname, _⟩ := splitAtName_some_spec part _ b _ a h2
            constructor
            · intro c hc
              rcases List.mem_append.mp hc with h3 | h3
              · refine hnames1 c ?_
                rw [hcs]
                exact List.mem_append_left _ h3
              · rcases List.mem_cons.mp h3 with rfl | h4
                · simp only [FileNode.name]
                  have : (FileNode.dir n p cs2).name = s := by
                    refine hnames1 _ ?_
                    rw [hcs]
                    exact List.mem_append_right _ (List.mem_cons_self _ _)
                  simpa [FileNode.name] using this
                · refine hnames1 c ?_
                  rw [hcs]
                  exact List.mem_append_right _ (List.mem_cons_of_mem _ h4)
            · have hlen2 : (b ++ FileNode.dir n p
                  (insertIntoChildren q [part] (r2 :: rest2) cs2) :: a).length
                  = (rootChildren l).length := by
                rw [hcs]
                simp
              rw [hlen2]
              exact hlen1

/-! ### Directory children are found, never duplicated: the find-or-create
step creates a directory only when no child of that name exists at all -/

theorem dirDupFree_insert (full : String) :
    ∀ (parts pre : List String) (cs : List FileNode),
      List.Pairwise dirNameNe cs →
      dirDupFreeChildren cs →
      List.Pairwise dirNameNe (insertIntoChildren full pre parts cs) ∧
      dirDupFreeChildren (insertIntoChildren full pre parts cs) := by
  intro parts
  induction parts with
  | nil =>
    intro pre cs hp hd
    exact ⟨hp, hd⟩
  | cons part rest ih =>
    intro pre cs hp hd
    cases rest with
    | nil =>
      rw [insertIntoChildren_single]
      constructor
      · rw [List.pairwise_append]
        refine ⟨hp, by simp, ?_⟩
        intro a ha b hb
        simp only [List.mem_singleton] at hb
        subst hb
        intro _ hbdir
        simp [FileNode.isDir] at hbdir
      · rw [dirDupFreeChildren_iff]
        intro c hc
        rcases List.mem_append.mp hc with h1 | h1
        · exact (dirDupFreeChildren_iff cs).mp hd c h1
        · simp only [List.mem_singleton] at h1
          subst h1
          trivial
    | cons p2 rest2 =>
      cases h : splitAtName part cs with
      | none =>
        rw [insertIntoChildren_cons_none full pre part p2 rest2 cs h]
        obtain ⟨ihp, ihd⟩ := ih (pre ++ [part]) [] (by simp) trivial
        constructor
        · rw [List.pairwise_append]
          refine ⟨hp, by simp, ?_⟩
          intro a ha b hb
          simp only [List.mem_singleton] at hb
          subst hb
          intro _ _
          simp only [FileNode.name]
          exact (splitAtName_none_iff part cs).mp h a ha
        · rw [dirDupFreeChildren_iff]
          intro c hc
          rcases List.mem_append.mp hc with h1 | h1
          · exact (dirDupFreeChildren_iff cs).mp hd c h1
          · simp only [List.mem_singleton] at h1
            subst h1
            exact ⟨ihp, ihd⟩
      | some v =>
        obtain ⟨b, x, a⟩ := v
        cases x with
        | file n p =>
          rw [insertIntoChildren_cons_fileFound full pre part p2 rest2 cs b n p a h]
          exact ⟨hp, hd⟩
        | dir n p cs2 =>
          rw [insertIntoChildren_cons_dirFound full pre part p2 rest2 cs b n p cs2 a h]
          obtain ⟨hcs, hname, hbn⟩ := splitAtName_some_spec part cs b _ a h
          have holddf : dirDupFreeNode (FileNode.dir n p cs2) := by
            refine (dirDupFreeChildren_iff cs).mp hd _ ?_
            rw [hcs]
            exact List.mem_append_right _ (List.mem_cons_self _ _)
          simp only [dirDupFreeNode] at holddf
          obtain ⟨ihp, ihd⟩ := ih (pre ++ [part]) cs2 holddf.1 holddf.2
          rw [hcs] at hp
          rw [List.pairwise_append] at hp
          obtain ⟨hpb, hpya, hcross⟩ := hp
          rw [List.pairwise_cons] at hpya
          obtain ⟨hya, hpa⟩ := hpya
          constructor
          · rw [List.pairwise_append, List.pairwise_cons]
            refine ⟨hpb, ⟨?_, hpa⟩, ?_⟩
            · intro z hz
              intro _ hdir2
              simp only [FileNode.name]
              have hzz := hya z hz
              simp only [dirNameNe, FileNode.isDir, FileNode.name] at hzz
              exact hzz trivial hdir2
            · intro u hu z hz
              rcases List.mem_cons.mp hz with rfl | hz2
              · intro hdu _
                simp only [FileNode.name]
                have huu := hcross u hu (FileNode.dir n p cs2) (List.mem_cons_self _ _)
                simp only [dirNameNe, FileNode.isDir, FileNode.name] at huu
                exact huu hdu trivial
              · exact hcross u hu z (List.mem_cons_of_mem _ hz2)
          · rw [dirDupFreeChildren_iff]
            intro c hc
            rcases List.mem_append.mp hc with h1 | h1
            · refine (dirDupFreeChildren_iff cs).mp hd c ?_
              rw [hcs]
              exact List.mem_append_left _ h1
            · rcases List.mem_cons.mp h1 with rfl | h2
              · exact ⟨ihp, ihd⟩
              · refine (dirDupFreeChildren_iff cs).mp hd c ?_
                rw [hcs]
                exact List.mem_append_right _ (List.mem_cons_of_mem _ h2)

theorem rootChildren_dirDupFree : ∀ (l : List String),
    List.Pairwise dirNameNe (rootChildren l) ∧ dirDupFreeChildren (rootChildren l) := by
  intro l
  induction l using List.reverseRecOn with
  | nil => exact ⟨by simp [rootChildren], trivial⟩
  | append_singleton l q ih =>
    rw [rootChildren_append_singleton]
    exact dirDupFree_insert q (splitSlash q) [] (rootChildren l) ih.1 ih.2

/-! ### The displayed tree is the first top-level entry -/

/-- An insertion never removes, reorders or renames the first root child: it
either appends at the end, replaces the first child of a name in place by a
node of the same name, or leaves the list alone. -/
theorem insert_head_name (full : String) (parts pre : List String) (c : FileNode)
    (cs : List FileNode) :
    ∃ c' cs', insertIntoChildren full pre parts (c :: cs) = c' :: cs' ∧
      c'.name = c.name := by
  cases parts with
  | nil => exact ⟨c, cs, rfl, rfl⟩
  | cons part rest =>
    cases rest with
    | nil =>
      refine ⟨c, cs ++ [FileNode.file part full], ?_, rfl⟩
      rw [insertIntoChildren_single]
      rfl
    | cons p2 rest2 =>
      cases h : splitAtName part (c :: cs) with
      | none =>
        refine ⟨c, cs ++ [FileNode.dir part (joinSegs (pre ++ [part]))
          (insertIntoChildren full (pre ++ [part]) (p2 :: rest2) [])], ?_, rfl⟩
        rw [insertIntoChildren_cons_none full pre part p2 rest2 _ h]
        rfl
      | some v =>
        obtain ⟨b, x, a⟩ := v
        cases x with
        | file n p =>
          exact ⟨c, cs,
            insertIntoChildren_cons_fileFound full pre part p2 rest2 _ b n p a h, rfl⟩
        | dir n p cs2 =>
          cases b with
          | nil =>
            obtain ⟨hcs, hname, _⟩ := splitAtName_some_spec part _ [] _ a h
            simp only [List.nil_append, List.cons.injEq] at hcs
            refine ⟨FileNode.dir n p
              (insertIntoChildren full (pre ++ [part]) (p2 :: rest2) cs2), a, ?_, ?_⟩
            · rw [insertIntoChildren_cons_dirFound full pre part p2 rest2 _ [] n p cs2 a h]
              rfl
            · rw [hcs.1]
              rfl
          | cons c0 b' =>
            obtain ⟨hcs, hname, _⟩ := splitAtName_some_spec part _ (c0 :: b') _ a h
            simp only [List.cons_append, List.cons.injEq] at hcs
            refine ⟨c0, b' ++ FileNode.dir n p
              (insertIntoChildren full (pre ++ [part]) (p2 :: rest2) cs2) :: a, ?_, ?_⟩
            · rw [insertIntoChildren_cons_dirFound full pre part p2 rest2 _ (c0 :: b') n p cs2 a h]
              rfl
            · rw [hcs.1]

theorem rootChildren_head_name (p : String) : ∀ (ps : List String),
    ∃ t ts, rootChildren (p :: ps) = t :: ts ∧ t.name = headSeg p := by
  intro ps
  induction ps using List.reverseRecOn with
  | nil =>
    have h0 : rootChildren [p] = insertIntoChildren p [] (splitSlash p) [] := rfl
    cases hsp : splitSlash p with
    | nil => exact absurd hsp (splitSlash_ne_nil p)
    | cons part rest =>
      cases rest with
      | nil =>
        refine ⟨FileNode.file part p, [], ?_, ?_⟩
        · rw [h0, hsp, insertIntoChildren_single]
          rfl
        · simp [FileNode.name, headSeg, hsp]
      | cons r2 rest2 =>
        have hnone : splitAtName part ([] : List FileNode) = none := rfl
        refine ⟨FileNode.dir part (joinSegs ([] ++ [part]))
          (insertIntoChildren p ([] ++ [part]) (r2 :: rest2) []), [], ?_, ?_⟩
        · rw [h0, hsp, insertIntoChildren_cons_none p [] part r2 rest2 [] hnone]
          rfl
        · simp [FileNode.name, headSeg, hsp]
  | append_singleton ps q ih =>
    obtain ⟨t, ts, hts, hname⟩ := ih
    have hstep : rootChildren (p :: (ps ++ [q]))
        = insertIntoChildren q [] (splitSlash q) (rootChildren (p :: ps)) := by
      have hl : p :: (ps ++ [q]) = (p :: ps) ++ [q] := rfl
      rw [hl, rootChildren_append_singleton]
    rw [hstep, hts]
    obtain ⟨c', cs', heq, hname'⟩ := insert_head_name q (splitSlash q) [] t ts
    exact ⟨c', cs', heq, by rw [hname', hname]⟩

theorem filter_name_eq_nil (s : String) (cs : List FileNode)
    (h : ∀ c ∈ cs, c.name ≠ s) : cs.filter (fun c => c.name == s) = [] := by
  rw [List.filter_eq_nil_iff]
  intro c hc
  simpa using h c hc

/-- Inserting a path whose first segment differs from `s` leaves the root's
`s`-named children untouched. -/
theorem insert_filter_ne (q s : String) (cs : List FileNode) (hq : headSeg q ≠ s) :
    (insertIntoChildren q [] (splitSlash q) cs).filter (fun c => c.name == s)
      = cs.filter (fun c => c.name == s) := by
  cases hsp : splitSlash q with
  | nil => exact absurd hsp (splitSlash_ne_nil q)
  | cons part rest =>
    have hpart : part ≠ s := by
      intro e
      apply hq
      have hh : headSeg q = part := by simp [headSeg, hsp]
      rw [hh, e]
    cases rest with
    | nil =>
      rw [insertIntoChildren_single, List.filter_append]
      have hone : [FileNode.file part q].filter (fun c => c.name == s) = [] := by
        simp [FileNode.name, hpart]
      rw [hone, List.append_nil]
    | cons r2 rest2 =>
      cases h : splitAtName part cs with
      | none =>
        rw [insertIntoChildren_cons_none q [] part r2 rest2 cs h, List.filter_append]
        have hone : [FileNode.dir part (joinSegs ([] ++ [part]))
            (insertIntoChildren q ([] ++ [part]) (r2 :: rest2) [])].filter
              (fun c => c.name == s) = [] := by
          simp [FileNode.name, hpart]
        rw [hone, List.append_nil]
      | some v =>
        obtain ⟨b, x, a⟩ := v
        cases x with
        | file n p =>
          rw [insertIntoChildren_cons_fileFound q [] part r2 rest2 cs b n p a h]
        | dir n p cs2 =>
          rw [insertIntoChildren_cons_dirFound q [] part r2 rest2 cs b n p cs2 a h]
          obtain ⟨hcs, hname, _⟩ := splitAtName_some_spec part cs b _ a h
          simp only [FileNode.name] at hname
          rw [hcs, List.filter_append, List.filter_append]
          congr 1
          rw [List.filter_cons_of_neg (by simp [FileNode.name, hname, hpart]),
            List.filter_cons_of_neg (by simp [FileNode.name, hname, hpart])]

/-- Inserting a path whose first segment is `s` acts on the root's `s`-named
children exactly as it acts inside the full root children list. -/
theorem insert_filter_eq (q s : String) (cs : List FileNode) (hq : headSeg q = s) :
    insertIntoChildren q [] (splitSlash q) (cs.filter (fun c => c.name == s))
      = (insertIntoChildren q [] (splitSlash q) cs).filter (fun c => c.name == s) := by
  cases hsp : splitSlash q with
  | nil => exact absurd hsp (splitSlash_ne_nil q)
  | cons part rest =>
    have hpart : part = s := by
      have hh : headSeg q = part := by simp [headSeg, hsp]
      rw [← hh, hq]
    cases rest with
    | nil =>
      rw [insertIntoChildren_single, insertIntoChildren_single, List.filter_append]
      have hone : [FileNode.file part q].filter (fun c => c.name == s)
          = [FileNode.file part q] := by
        simp [FileNode.name, hpart]
      rw [hone]
    | cons r2 rest2 =>
      cases h : splitAtName part cs with
      | none =>
        have hfnil : cs.filter (fun c => c.name == s) = [] := by
          apply filter_name_eq_nil
          intro c hc e
          exact (splitAtName_none_iff part cs).mp h c hc (by rw [e, hpart])
        rw [hfnil, insertIntoChildren_cons_none q [] part r2 rest2 cs h]
        have hnone0 : splitAtName part ([] : List FileNode) = none := rfl
        rw [insertIntoChildren_cons_none q [] part r2 rest2 [] hnone0, List.filter_append,
          hfnil]
        simp [FileNode.name, hpart]
      | some v =>
        obtain ⟨b, y, a⟩ := v
        obtain ⟨hcs, hname, hbno⟩ := splitAtName_some_spec part cs b _ a h
        have hfb : b.filter (fun c => c.name == s) = [] := by
          apply filter_name_eq_nil
          intro c hc e
          exact hbno c hc (by rw [e, hpart])
        have hfcs : cs.filter (fun c => c.name == s)
            = y :: a.filter (fun c => c.name == s) := by
          rw [hcs, List.filter_append, hfb, List.nil_append,
            List.filter_cons_of_pos (by simp [hname, hpart])]
        cases y with
        | file n p =>
          simp only [FileNode.name] at hname
          rw [insertIntoChildren_cons_fileFound q [] part r2 rest2 cs b n p a h, hfcs]
          have hfind : splitAtName part
              (FileNode.file n p :: a.filter (fun c => c.name == s))
              = some ([], FileNode.file n p, a.filter (fun c => c.name == s)) := by
            have he : FileNode.file n p :: a.filter (fun c => c.name == s)
                = [] ++ FileNode.file n p :: a.filter (fun c => c.name == s) := rfl
            rw [he]
            exact splitAtName_eq_some part [] _ _ (by simp) (by simp [FileNode.name, hname])
          rw [insertIntoChildren_cons_fileFound q [] part r2 rest2 _ [] n p _ hfind]
        | dir n p cs2 =>
          simp only [FileNode.name] at hname
          rw [insertIntoChildren_cons_dirFound q [] part r2 rest2 cs b n p cs2 a h, hfcs]
          have hfind : splitAtName part
              (FileNode.dir n p cs2 :: a.filter (fun c => c.name == s))
              = some ([], FileNode.dir n p cs2, a.filter (fun c => c.name == s)) := by
            have he : FileNode.dir n p cs2 :: a.filter (fun c => c.name == s)
                = [] ++ FileNode.dir n p cs2 :: a.filter (fun c => c.name == s) := rfl
            rw [he]
            exact splitAtName_eq_some part [] _ _ (by simp) (by simp [FileNode.name, hname])
          rw [insertIntoChildren_cons_dirFound q [] part r2 rest2 _ [] n p cs2 _ hfind]
          rw [List.filter_append, hfb, List.nil_append,
            List.filter_cons_of_pos (by simp [FileNode.name, hname, hpart])]
          rfl

/-- The `s`-named root children of the tree built from a mapping are exactly
the root children of the tree built from the sub-mapping of paths whose first
segment is `s`. -/
theorem rootChildren_filter (s : String) : ∀ (l : List String),
    rootChildren (l.filter (fun q => headSeg q == s))
      = (rootChildren l).filter (fun c => c.name == s) := by
  intro l
  induction l using List.reverseRecOn with
  | nil => rfl
  | append_singleton l q ih =>
    rw [rootChildren_append_singleton, List.filter_append]
    by_cases hq : headSeg q = s
    · have hone : [q].filter (fun r => headSeg r == s) = [q] := by simp [hq]
      rw [hone, rootChildren_append_singleton, ih]
      exact insert_filter_eq q s (rootChildren l) hq
    · have hone : [q].filter (fun r => headSeg r == s) = [] := by simp [hq]
      rw [hone, List.append_nil, ih]
      exact (insert_filter_ne q s (rootChildren l) hq).symm

/-! ### Claim theorems -/

/-- C1 counterexample: the mapping `{a/b, a/b/c}` has two unique paths sharing
the top-level segment `a`, yet the built tree has only one File node — the
walk for `a/b/c` reaches the File node `a/b` and contributes nothing. -/
theorem C1_counterexample :
    (["a/b", "a/b/c"] : List String).Nodup ∧
    (∀ p ∈ (["a/b", "a/b/c"] : List String), headSeg p = "a") ∧
    ∃ t, updateFileTree ["a/b", "a/b/c"] = some t ∧ countFiles t ≠ 2 := by
  refine ⟨by decide, by decide,
    FileNode.dir ("a") ("a") [FileNode.file ("b") ("a/b")], by decide, by decide⟩

/-- C1 (amended): for every flat mapping with N unique paths that all share a
common top-level segment, and in which no path is a proper slash-prefix of
another, the tree builder produces exactly one root node, and the number of
File (leaf) nodes in the resulting tree equals N. -/
theorem C1_singleRootLeafCount (ps : List String) (s : String)
    (hne : ps ≠ []) (hnd : ps.Nodup)
    (hfree : ∀ p ∈ ps, ∀ q ∈ ps, ¬ PathBelow p q)
    (htop : ∀ p ∈ ps, headSeg p = s) :
    ∃ t, rootChildren ps = [t] ∧ updateFileTree ps = some t ∧
      countFiles t = ps.length := by
  obtain ⟨hnames, hlen⟩ := rootChildren_single_top ps s hnd hfree htop
  obtain ⟨hperm, -, -⟩ := rootChildren_stayreal ps hnd hfree
  cases hcs : rootChildren ps with
  | nil =>
    exfalso
    rw [hcs] at hperm
    simp only [filePathsList] at hperm
    exact hne (List.perm_nil.mp hperm.symm)
  | cons t ts =>
    have hts : ts = [] := by
      rw [hcs] at hlen
      simp only [List.length_cons] at hlen
      have h0 : ts.length = 0 := by omega
      exact List.length_eq_zero.mp h0
    subst hts
    refine ⟨t, rfl, ?_, ?_⟩
    · rw [updateFileTree_eq, hcs]
      rfl
    · rw [hcs] at hperm
      have hl := hperm.length_eq
      simp only [filePathsList, List.append_nil] at hl
      rw [countFiles_eq_length_filePaths]
      exact hl

theorem C1_witness :
    ((["a/b", "a/c"] : List String) ≠ [] ∧ (["a/b", "a/c"] : List String).Nodup ∧
      (∀ p ∈ (["a/b", "a/c"] : List String), ∀ q ∈ (["a/b", "a/c"] : List String),
        ¬ PathBelow p q) ∧
      (∀ p ∈ (["a/b", "a/c"] : List String), headSeg p = "a")) ∧
    ∃ t, rootChildren ["a/b", "a/c"] = [t] ∧ updateFileTree ["a/b", "a/c"] = some t ∧
      countFiles t = (["a/b", "a/c"] : List String).length :=
  ⟨⟨by decide, by decide, by decide, by decide⟩,
    C1_singleRootLeafCount ["a/b", "a/c"] ("a") (by decide) (by decide) (by decide)
      (by decide)⟩

/-- C4 counterexample: with the mapping `{a/b/x, a/b}` the displayed tree is a
directory `a` whose children are a Directory named `b` and then a File named
`b` — two entries with the same name. -/
theorem C4_counterexample :
    (["a/b/x", "a/b"] : List String).Nodup ∧
    updateFileTree ["a/b/x", "a/b"]
      = some (FileNode.dir ("a") ("a")
          [FileNode.dir ("b") ("a/b") [FileNode.file ("x") ("a/b/x")],
           FileNode.file ("b") ("a/b")]) ∧
    ¬ dupFreeNode (FileNode.dir ("a") ("a")
          [FileNode.dir ("b") ("a/b") [FileNode.file ("x") ("a/b/x")],
           FileNode.file ("b") ("a/b")]) := by
  refine ⟨by decide, by decide, ?_⟩
  intro h
  simp only [dupFreeNode, namesOf, List.map, FileNode.name] at h
  exact absurd h.1 (by decide)

/-- C4 (amended): in every tree produced by the builder from a flat mapping
with unique paths none of which is a proper slash-prefix of another, no
Directory node's children sequence contains two entries with the same name
(file and directory children included). -/
theorem C4_no_duplicate_names (ps : List String) (t : FileNode)
    (hnd : ps.Nodup) (hfree : ∀ p ∈ ps, ∀ q ∈ ps, ¬ PathBelow p q)
    (ht : updateFileTree ps = some t) : dupFreeNode t := by
  obtain ⟨-, hdf, -⟩ := rootChildren_stayreal ps hnd hfree
  rw [updateFileTree_eq] at ht
  have hmem : t ∈ rootChildren ps := by
    cases hcs : rootChildren ps with
    | nil =>
      rw [hcs] at ht
      simp at ht
    | cons c cs' =>
      rw [hcs] at ht
      simp only [List.head?] at ht
      obtain rfl : c = t := by simpa using ht
      exact List.mem_cons_self _ _
  exact (dupFreeChildren_iff _).mp hdf t hmem

theorem C4_witness :
    ((["a/b", "a/c"] : List String).Nodup ∧
      (∀ p ∈ (["a/b", "a/c"] : List String), ∀ q ∈ (["a/b", "a/c"] : List String),
        ¬ PathBelow p q) ∧
      updateFileTree ["a/b", "a/c"]
        = some (FileNode.dir ("a") ("a")
            [FileNode.file ("b") ("a/b"), FileNode.file ("c") ("a/c")])) ∧
    dupFreeNode (FileNode.dir ("a") ("a")
      [FileNode.file ("b") ("a/b"), FileNode.file ("c") ("a/c")]) :=
  ⟨⟨by decide, by decide, by decide⟩,
    C4_no_duplicate_names ["a/b", "a/c"] _ (by decide) (by decide) (by decide)⟩

/-- C9 counterexample: in the mapping `{a/z, a, a/w}`, the path `a` is
iterated before `a/w` and is a proper slash-prefix of it, yet `a/w` does
contribute a node — the walk for `a/w` finds the Directory `a` (created for
`a/z`) before the File `a`, so the trees with and without `a/w` differ. -/
theorem C9_counterexample :
    (["a/z", "a", "a/w"] : List String).Nodup ∧
    PathBelow ("a") ("a/w") ∧
    updateFileTree ["a/z", "a", "a/w"] ≠ updateFileTree ["a/z", "a"] := by
  refine ⟨by decide, by decide, by decide⟩

theorem C9_witness :
    (PathBelow ("a") ("a/c") ∧ ∀ r ∈ (["b"] : List String), ¬ PathBelow ("a") r) ∧
    updateFileTree (["b"] ++ ["a"] ++ [] ++ ["a/c"] ++ [])
      = updateFileTree (["b"] ++ ["a"] ++ [] ++ []) :=
  ⟨⟨by decide, by decide⟩,
    shadowed_extension_dropped ["b"] [] [] ("a") ("a/c") (by decide) (by decide)⟩

/-- C2: the builder matches an existing child by name equality alone, so two
paths sharing a prefix of directory segments resolve at every shared level to
one and the same Directory node: in every produced tree no children list holds
two Directory entries with the same name, and in particular `a/b.txt` and
`a/c.txt` yield a single Directory `a` holding both files. -/
theorem C2_shared_directory_nodes :
    (∀ (ps : List String) (t : FileNode), updateFileTree ps = some t →
      dirDupFreeNode t) ∧
    updateFileTree ["a/b.txt", "a/c.txt"]
      = some (FileNode.dir ("a") ("a")
          [FileNode.file ("b.txt") ("a/b.txt"), FileNode.file ("c.txt") ("a/c.txt")]) := by
  constructor
  · intro ps t ht
    obtain ⟨-, hdd⟩ := rootChildren_dirDupFree ps
    rw [updateFileTree_eq] at ht
    have hmem : t ∈ rootChildren ps := by
      cases hcs : rootChildren ps with
      | nil =>
        rw [hcs] at ht
        simp at ht
      | cons c cs' =>
        rw [hcs] at ht
        simp only [List.head?] at ht
        obtain rfl : c = t := by simpa using ht
        exact List.mem_cons_self _ _
    exact (dirDupFreeChildren_iff _).mp hdd t hmem
  · decide

theorem C2_witness :
    updateFileTree ["x/y"] = some (FileNode.dir ("x") ("x") [FileNode.file ("y") ("x/y")]) ∧
    dirDupFreeNode (FileNode.dir ("x") ("x") [FileNode.file ("y") ("x/y")]) :=
  ⟨by decide, C2_shared_directory_nodes.1 ["x/y"] _ (by decide)⟩

/-- C3: the builder returns the synthetic root's first child: the empty
mapping yields no tree; otherwise the displayed tree equals the one built from
just the paths sharing the first path's top-level segment (all sibling
top-level entries are dropped), and it is named by that first-seen top-level
segment. -/
theorem C3_first_child_displayed :
    updateFileTree [] = none ∧
    ∀ (p : String) (ps : List String),
      updateFileTree (p :: ps)
        = updateFileTree ((p :: ps).filter (fun q => headSeg q == headSeg p)) ∧
      ∃ t ts, rootChildren (p :: ps) = t :: ts ∧ updateFileTree (p :: ps) = some t ∧
        t.name = headSeg p := by
  constructor
  · rfl
  · intro p ps
    obtain ⟨t, ts, hts, hname⟩ := rootChildren_head_name p ps
    constructor
    · rw [updateFileTree_eq, updateFileTree_eq, rootChildren_filter (headSeg p) (p :: ps),
        hts, List.filter_cons_of_pos (by simp [hname])]
      rfl
    · refine ⟨t, ts, hts, ?_, hname⟩
      rw [updateFileTree_eq, hts]
      rfl

/-- Exact characterization of `(num / den).toFixed(2)` for a natural `num` and
positive `den`: the printed value `q.rr` is the integer number of hundredths
nearest to `num/den`, ties resolved upward. -/
theorem toFixed2_round (num den : Nat) (hden : 0 < den) :
    ∃ q r : Nat, r < 100 ∧ toFixed2 num den = toString q ++ "." ++ padTwo r ∧
      2 * den * (100 * q + r) ≤ 200 * num + den ∧
      200 * num < 2 * den * (100 * q + r) + den := by
  refine ⟨(200 * num + den) / (2 * den) / 100, (200 * num + den) / (2 * den) % 100,
    Nat.mod_lt _ (by norm_num), rfl, ?_, ?_⟩
  · rw [Nat.div_add_mod ((200 * num + den) / (2 * den)) 100]
    rw [Nat.mul_comm]
    exact Nat.div_mul_le_self _ _
  · rw [Nat.div_add_mod ((200 * num + den) / (2 * den)) 100]
    have h3 := Nat.div_add_mod (200 * num + den) (2 * den)
    have h4 : (200 * num + den) % (2 * den) < 2 * den := Nat.mod_lt _ (by omega)
    omega

/-- C5: for every non-negative integer byte count, the formatter uses the
binary thresholds 1024, 1048576, 1073741824 with the unit suffixes below; in
the fractional tiers it prints the quotient to two decimals (nearest
hundredth, ties upward — exactly `toFixed(2)` on the exact binary quotient),
and on the spec's sample inputs it yields the listed strings. -/
theorem C5_formatFileSize_spec :
    (∀ n : Nat, n < 1024 → formatFileSize n = toString n ++ " bytes") ∧
    (∀ n : Nat, 1024 ≤ n → n < 1048576 → ∃ q r : Nat, r < 100 ∧
      formatFileSize n = toString q ++ "." ++ padTwo r ++ " KB" ∧
      2 * 1024 * (100 * q + r) ≤ 200 * n + 1024 ∧
      200 * n < 2 * 1024 * (100 * q + r) + 1024) ∧
    (∀ n : Nat, 1048576 ≤ n → n < 1073741824 → ∃ q r : Nat, r < 100 ∧
      formatFileSize n = toString q ++ "." ++ padTwo r ++ " MB" ∧
      2 * 1048576 * (100 * q + r) ≤ 200 * n + 1048576 ∧
      200 * n < 2 * 1048576 * (100 * q + r) + 1048576) ∧
    (∀ n : Nat, 1073741824 ≤ n → ∃ q r : Nat, r < 100 ∧
      formatFileSize n = toString q ++ "." ++ padTwo r ++ " GB" ∧
      2 * 1073741824 * (100 * q + r) ≤ 200 * n + 1073741824 ∧
      200 * n < 2 * 1073741824 * (100 * q + r) + 1073741824) ∧
    formatFileSize 0 = "0 bytes" ∧ formatFileSize 1023 = "1023 bytes" ∧
    formatFileSize 1024 = "1.00 KB" ∧ formatFileSize 1536 = "1.50 KB" ∧
    formatFileSize 1048576 = "1.00 MB" ∧ formatFileSize 1073741824 = "1.00 GB" := by
  refine ⟨?_, ?_, ?_, ?_, by decide, by decide, by decide, by decide, by decide, by decide⟩
  · intro n h1
    rw [formatFileSize, if_pos h1]
  · intro n h1 h2
    obtain ⟨q, r, hr, heq, hle, hlt⟩ := toFixed2_round n 1024 (by norm_num)
    refine ⟨q, r, hr, ?_, hle, hlt⟩
    rw [formatFileSize, if_neg (by omega), if_pos h2, heq]
  · intro n h1 h2
    obtain ⟨q, r, hr, heq, hle, hlt⟩ := toFixed2_round n 1048576 (by norm_num)
    refine ⟨q, r, hr, ?_, hle, hlt⟩
    rw [formatFileSize, if_neg (by omega), if_neg (by omega), if_pos h2, heq]
  · intro n h1
    obtain ⟨q, r, hr, heq, hle, hlt⟩ := toFixed2_round n 1073741824 (by norm_num)
    refine ⟨q, r, hr, ?_, hle, hlt⟩
    rw [formatFileSize, if_neg (by omega), if_neg (by omega), if_neg (by omega), heq]

theorem C5_witness :
    (1024 ≤ 1536 ∧ 1536 < 1048576) ∧
    ∃ q r : Nat, r < 100 ∧
      formatFileSize 1536 = toString q ++ "." ++ padTwo r ++ " KB" ∧
      2 * 1024 * (100 * q + r) ≤ 200 * 1536 + 1024 ∧
      200 * 1536 < 2 * 1024 * (100 * q + r) + 1024 :=
  ⟨⟨by decide, by decide⟩, C5_formatFileSize_spec.2.1 1536 (by decide) (by decide)⟩

theorem filePaths_sub_of_mem (t : FileNode) :
    ∀ (cs : List FileNode), t ∈ cs → ∀ fp ∈ filePaths t, fp ∈ filePathsList cs := by
  intro cs
  induction cs with
  | nil => intro h; simp at h
  | cons c cs ih =>
    intro hm fp hfp
    simp only [filePathsList]
    rcases List.mem_cons.mp hm with rfl | h2
    · exact List.mem_append_left _ hfp
    · exact List.mem_append_right _ (ih h2 fp hfp)

/-- C6: in every tree produced by the builder, each node's `path` splits into
exactly the segments leading from the top down to and including the node (for
directories this says the `path` is the slash-join of its ancestor names plus
its own; `joinSegs_splitSlash` converts between the two readings), and each
File node's `path` is one of the original relative paths it was built from. -/
theorem C6_paths_invariant (ps : List String) (t : FileNode)
    (ht : updateFileTree ps = some t) :
    nodeInv [] t ∧ ∀ fp ∈ filePaths t, fp ∈ ps := by
  obtain ⟨hinv, hfsub, -⟩ := rootChildren_facts ps
  rw [updateFileTree_eq] at ht
  have hmem : t ∈ rootChildren ps := by
    cases hcs : rootChildren ps with
    | nil =>
      rw [hcs] at ht
      simp at ht
    | cons c cs' =>
      rw [hcs] at ht
      simp only [List.head?] at ht
      obtain rfl : c = t := by simpa using ht
      exact List.mem_cons_self _ _
  refine ⟨(childrenInv_iff [] _).mp hinv t hmem, ?_⟩
  intro fp hfp
  exact hfsub fp (filePaths_sub_of_mem t (rootChildren ps) hmem fp hfp)

theorem C6_witness :
    updateFileTree ["a/b"] = some (FileNode.dir ("a") ("a") [FileNode.file ("b") ("a/b")]) ∧
    (nodeInv [] (FileNode.dir ("a") ("a") [FileNode.file ("b") ("a/b")]) ∧
      ∀ fp ∈ filePaths (FileNode.dir ("a") ("a") [FileNode.file ("b") ("a/b")]),
        fp ∈ (["a/b"] : List String)) :=
  ⟨by decide, C6_paths_invariant ["a/b"] _ (by decide)⟩

/-- C7: the rebuild is a pure, deterministic function of the flat mapping:
the resulting tree does not depend on any other component state, it equals
`updateFileTree` of the mapping's keys in iteration order, rebuilding twice
yields the same tree, and the rebuild writes nothing besides `fileTree` and
`isLoading` (in particular `selectedFile` is untouched). -/
theorem C7_pure_deterministic {F : Type} (fs : List (String × F)) (s1 s2 : AppState F) :
    (step s1 (Event.filesUpdate fs)).fileTree = (step s2 (Event.filesUpdate fs)).fileTree ∧
    (step s1 (Event.filesUpdate fs)).fileTree = updateFileTree (fs.map Prod.fst) ∧
    (step s1 (Event.filesUpdate fs)).selectedFile = s1.selectedFile ∧
    (step (step s1 (Event.filesUpdate fs)) (Event.filesUpdate fs)).fileTree
      = (step s1 (Event.filesUpdate fs)).fileTree :=
  ⟨rfl, rfl, rfl, rfl⟩

/-- C8: a selection whose path is not a key of the current mapping leaves the
whole component state unchanged — the previous selection persists and the
lookup miss is treated as absence. -/
theorem C8_missing_selection_noop {F : Type} (s : AppState F) (path : String)
    (h : mapGet path s.files = none) :
    step s (Event.select path) = s := by
  simp [step, h]

theorem C8_witness :
    mapGet ("gone.txt") ([(("a.txt" : String), (1 : Nat))]) = none ∧
    step (⟨[(("a.txt" : String), (1 : Nat))], none, some 1, false⟩ : AppState Nat)
        (Event.select ("gone.txt"))
      = (⟨[(("a.txt" : String), (1 : Nat))], none, some 1, false⟩ : AppState Nat) :=
  ⟨by decide, C8_missing_selection_noop _ _ (by decide)⟩

/-- C10: the selected-file state starts empty and is never cleared: every
event either leaves it unchanged or overwrites it with a file found in the
mapping, so once it holds a file it holds some file forever after. -/
theorem C10_selection_never_cleared {F : Type} :
    (initState F).selectedFile = none ∧
    (∀ (s : AppState F) (e : Event F),
      (step s e).selectedFile = s.selectedFile ∨
      ∃ path f, e = Event.select path ∧ mapGet path s.files = some f ∧
        (step s e).selectedFile = some f) ∧
    (∀ (s : AppState F) (e : Event F) (f : F),
      s.selectedFile = some f → ∃ f', (step s e).selectedFile = some f') := by
  refine ⟨rfl, ?_, ?_⟩
  · intro s e
    cases e with
    | filesUpdate fs => exact Or.inl rfl
    | select path =>
      cases h : mapGet path s.files with
      | none =>
        left
        simp [step, h]
      | some f =>
        right
        exact ⟨path, f, rfl, h, by simp [step, h]⟩
  · intro s e f hf
    cases e with
    | filesUpdate fs => exact ⟨f, hf⟩
    | select path =>
      cases h : mapGet path s.files with
      | none => exact ⟨f, by simp only [step, h]; exact hf⟩
      | some f2 => exact ⟨f2, by simp [step, h]⟩

theorem C10_witness :
    (initState Nat).selectedFile = none ∧
    ((⟨[], none, some 5, false⟩ : AppState Nat).selectedFile = some 5 ∧
      ∃ f', (step (⟨[], none, some 5, false⟩ : AppState Nat)
        (Event.select ("x"))).selectedFile = some f') :=
  ⟨(@C10_selection_never_cleared Nat).1,
    rfl, (@C10_selection_never_cleared Nat).2.2 _ _ 5 rfl⟩

example : updateFileTree [] = none := rfl

example : splitSlash ("a/b") = ["a", "b"] := by decide

example : updateFileTree ["a/b", "a/c"] =
    some (.dir ("a") ("a") [.file ("b") ("a/b"), .file ("c") ("a/c")]) := by
  decide

example : updateFileTree ["a/b", "a/b/c"] =
    some (.dir ("a") ("a") [.file ("b") ("a/b")]) := by
  decide

example : formatFileSize 1536 = "1.50 KB" := by decide

end LocalFirstExplorer
